import Mathlib

/-!
Verification of the link-reference-definition management engine
(`organizeLinkDefs.ts` and `languageFeatures/codeActions/extractLinkDef.ts`):
the definition Organizer, the Block Locator, the Group Segmenter, the
Definition Inserter and the Link Extractor.

The TypeScript source is embedded shallowly:
* documents are lists of lines (the external `ITextDocument` abstraction);
* LSP positions/ranges are pairs of naturals;
* the external helpers that live outside the provided sources
  (`isEmptyOrWhitespace`, `rangeIntersects`, `comparePosition`,
  `isSameResource`, `LinkDefinitionSet.lookup`, `codeActionKindContains`,
  JavaScript's `localeCompare` and number formatting) are modelled from the
  specification, as noted on each definition.
-/

namespace MdLs

/-- An LSP position: zero-based line and character. -/
structure Pos where
  line : Nat
  character : Nat
deriving DecidableEq

/-- An LSP range.  The field `stop` embeds the source's `range.end`
(`end` is a Lean keyword). -/
structure Range where
  start : Pos
  stop : Pos
deriving DecidableEq

/-- Lexicographic order on positions (line, then character), non-strict. -/
def posLe (a b : Pos) : Prop :=
  a.line < b.line ∨ (a.line = b.line ∧ a.character ≤ b.character)

/-- Lexicographic order on positions (line, then character), strict. -/
def posLt (a b : Pos) : Prop :=
  a.line < b.line ∨ (a.line = b.line ∧ a.character < b.character)

instance (a b : Pos) : Decidable (posLe a b) := by unfold posLe; infer_instance

instance (a b : Pos) : Decidable (posLt a b) := by unfold posLt; infer_instance

/-- Modelled from the spec: `comparePosition` from `types/position.ts` is not
under `src/`; per the data model, positions compare by line then character.
Returns a negative, zero or positive integer like the source comparator. -/
def comparePosition (a b : Pos) : Int :=
  if a.line ≠ b.line then (a.line : Int) - (b.line : Int)
  else (a.character : Int) - (b.character : Int)

/-- Modelled from the spec: `translatePosition(p, { characterDelta })` from
`types/position.ts` is not under `src/`; it shifts the character of a
position.  Only the delta `+1` and `-1` uses occur; `Int` delta with
truncation at zero models them on `Nat` characters. -/
def translateChar (p : Pos) (delta : Int) : Pos :=
  ⟨p.line, ((p.character : Int) + delta).toNat⟩

/-- Modelled from the spec: `rangeIntersects` from `types/range.ts` is not
under `src/`; two ranges intersect when neither ends strictly before the
other starts (touching ranges intersect). -/
def rangeIntersects (a b : Range) : Bool :=
  decide (posLe a.start b.stop) && decide (posLe b.start a.stop)

/-- Two ranges are disjoint (non-overlapping): one ends at or before the
other starts.  This is the non-overlap notion of the spec's ordering
contract for edits. -/
def rangesDisjoint (a b : Range) : Prop :=
  posLe a.stop b.start ∨ posLe b.stop a.start

instance (a b : Range) : Decidable (rangesDisjoint a b) := by
  unfold rangesDisjoint; infer_instance

/-- Range containment: `r` lies inside `s`. -/
def rangeWithin (r s : Range) : Prop :=
  posLe s.start r.start ∧ posLe r.stop s.stop

instance (r s : Range) : Decidable (rangeWithin r s) := by
  unfold rangeWithin; infer_instance

/-! ### Strings -/

/-- Modelled from the spec: `isEmptyOrWhitespace` from `util/string.ts` is
not under `src/`; it tests that a string is empty or all whitespace. -/
def isEmptyOrWhitespace (s : String) : Bool :=
  s.data.all Char.isWhitespace

/-- Modelled from the spec: normalized reference labels are "compared
case/whitespace-insensitively per Markdown reference-link semantics"
(`LinkDefinitionSet` lives in `documentLinks.ts`, outside `src/`).
Normalization removes whitespace and lowercases. -/
def normalizeRefName (s : String) : String :=
  String.mk ((s.data.filter (fun c => !c.isWhitespace)).map Char.toLower)

/-- Strict lexicographic comparison of character lists by code point.
Kernel-computable model of string ordering. -/
def charsLt : List Char → List Char → Bool
  | [], [] => false
  | [], _ :: _ => true
  | _ :: _, [] => false
  | c :: cs, d :: ds =>
    if c.toNat < d.toNat then true
    else if d.toNat < c.toNat then false
    else charsLt cs ds

/-- Modelled from the spec: JavaScript's `String.prototype.localeCompare`
("locale-aware lexicographic string comparison") is a runtime builtin; it is
modelled as code-point lexicographic comparison (a fixed locale), returning
a negative, zero or positive integer. -/
def localeCompare (a b : String) : Int :=
  if charsLt a.data b.data then -1
  else if charsLt b.data a.data then 1
  else 0

/-- Join lines with `"\n"`.  Models the document text of a list of lines
(the `ITextDocument` abstraction stores full text; lines carry no
terminator). -/
def joinLines : List String → String
  | [] => ""
  | [s] => s
  | s :: rest => s ++ "\n" ++ joinLines rest

/-- Split a character list at `'\n'`, JavaScript `split` semantics:
the empty list yields one empty field. -/
def splitLinesData : List Char → List (List Char)
  | [] => [[]]
  | c :: rest =>
    if c = '\n' then [] :: splitLinesData rest
    else
      match splitLinesData rest with
      | [] => [[c]]
      | l :: ls => (c :: l) :: ls

/-- Models `text.split(/\r\n|\n/g)` on documents without carriage returns. -/
def splitLines (s : String) : List String :=
  (splitLinesData s.data).map String.mk

/-- Decimal digits of a natural number, most significant first; `fuel`-bounded
structural recursion (any `fuel > n` is exact).  Models JavaScript's decimal
rendering of a number in a template literal. -/
def natDigitsAux : Nat → Nat → List Char
  | 0, _ => []
  | fuel + 1, n =>
    if n < 10 then [Nat.digitChar n]
    else natDigitsAux fuel (n / 10) ++ [Nat.digitChar (n % 10)]

/-- Modelled from the spec: JavaScript number-to-string conversion
(template literal `` `${base}${i}` ``), i.e. decimal representation. -/
def natToString (n : Nat) : String :=
  String.mk (natDigitsAux (n + 1) n)

/-- Decimal value of a digit list (decoder used to prove `natToString`
injective). -/
def decodeDigits (l : List Char) : Nat :=
  l.foldl (fun a c => a * 10 + (c.toNat - 48)) 0

/-! ### Documents -/

/-- A document is its list of lines (the external `ITextDocument`
abstraction: line text, line count, range text extraction). -/
abbrev Doc := List String

/-- Models `getLine(doc, n)` from `types/textDocument.ts`: text of line `n`
(empty for an out-of-range line). -/
def getLine (doc : Doc) (n : Nat) : String :=
  doc.getD n ""

/-- Models `doc.getText(Range.create(n, 0, maxLspUInt, 0))`: the text from
the start of line `n` through the end of the document (the `maxLspUInt`
sentinel position clamps to the document end). -/
def textAfterLine (doc : Doc) (n : Nat) : String :=
  joinLines (doc.drop n)

/-- Models `doc.getText(range)` for an in-document range. -/
def getText (doc : Doc) (r : Range) : String :=
  if r.start.line = r.stop.line then
    ((getLine doc r.start.line).take r.stop.character).drop r.start.character
  else
    joinLines (((getLine doc r.start.line).drop r.start.character ::
      ((doc.drop (r.start.line + 1)).take (r.stop.line - r.start.line - 1))) ++
      [(getLine doc r.stop.line).take r.stop.character])

/-! ### The link data model -/

/-- Embeds `Href`: tagged union over `HrefKind` (`External`, `Internal`,
`Reference`), as in `types/documentLink.ts`. -/
inductive Href where
  | external (uri : String)
  | internal (path : String) (fragment : String)
  | reference (ref : String)
deriving DecidableEq

/-- The `ref` token of a link definition: its text as authored and its
range. -/
structure MdRef where
  text : String
  range : Range
deriving DecidableEq

/-- Embeds `MdLinkDefinition`: declares a label (`ref`) and maps it to literal
target text (`source.hrefText`); `range` is `source.range`. -/
structure MdLinkDefinition where
  ref : MdRef
  range : Range
  hrefText : String
deriving DecidableEq

/-- Embeds `MdLink`: tagged union over `MdLinkKind` (`Link`, `AutoLink`,
`Definition`).  Inline and reference links are kind `Link`; `range` is
`source.range` and `targetRange` is `source.targetRange`. -/
inductive MdLink where
  | link (href : Href) (range : Range) (targetRange : Range)
  | autoLink (href : Href) (range : Range) (targetRange : Range)
  | definition (defn : MdLinkDefinition)
deriving DecidableEq

/-- The `link.kind === MdLinkKind.Definition` filter, as an `Option`. -/
def asDefinition : MdLink → Option MdLinkDefinition
  | .definition d => some d
  | _ => none

/-- Embeds `link.source.range`: the full span of the construct. -/
def linkSourceRange : MdLink → Range
  | .link _ r _ => r
  | .autoLink _ r _ => r
  | .definition d => d.range

/-- Embeds `link.kind !== MdLinkKind.Definition`. -/
def isNotDefinition : MdLink → Bool
  | .definition _ => false
  | _ => true

/-- Embeds `link.kind === MdLinkKind.Link || link.kind === MdLinkKind.AutoLink`. -/
def isInlineOrAuto : MdLink → Bool
  | .link _ _ _ => true
  | .autoLink _ _ _ => true
  | .definition _ => false

/-- The link's href.  Definitions carry no href in the source model; the
`.reference` of the label stands in (no source call path reaches it). -/
def linkHrefX : MdLink → Href
  | .link h _ _ => h
  | .autoLink h _ _ => h
  | .definition d => .reference d.ref.text

/-- The range the Extractor rewrites for a matching link: the whole source
range for an autolink, the target range otherwise
(`link.kind === MdLinkKind.AutoLink ? link.source.range :
link.source.targetRange`). -/
def rewriteTargetRange : MdLink → Range
  | .link _ _ tr => tr
  | .autoLink _ r _ => r
  | .definition d => d.range

/-- Embeds `link.source.targetRange` (definitions: their own range; unreached). -/
def linkTargetRangeX : MdLink → Range
  | .link _ _ tr => tr
  | .autoLink _ _ tr => tr
  | .definition d => d.range

/-- Embeds `href.kind === HrefKind.External || href.kind === HrefKind.Internal`. -/
def isExtOrInt : Href → Bool
  | .external _ => true
  | .internal _ _ => true
  | .reference _ => false

/-- The links snapshot returned by the Link Provider
(`MdDocumentLinksInfo`): all links plus the extracted definition set. -/
structure MdDocumentLinksInfo where
  links : List MdLink
  definitions : List MdLinkDefinition
deriving DecidableEq

/-- A text edit: range to replace plus replacement text. -/
structure TextEdit where
  range : Range
  newText : String
deriving DecidableEq

/-- A `{startLine, endLine}` record of the Block Locator and Group
Segmenter. -/
structure Block where
  startLine : Nat
  endLine : Nat
deriving DecidableEq

/-! ### Block Locator (`getExistingDefinitionBlock`) -/

/-- The backward walk of `getExistingDefinitionBlock`: iterate the
definitions from last to first; break when a definition's start line drops
below `prev - 1`, else continue with that line; return the last accepted
start line.  The argument list is the definition list reversed. -/
def walkBackFrom (prev : Nat) : List MdLinkDefinition → Nat
  | [] => prev
  | d :: rest =>
    if d.range.start.line < prev - 1 then prev
    else walkBackFrom d.range.start.line rest

/-- Embeds `getExistingDefinitionBlock(doc, orderedDefinitions)`: `none` for an
empty list; inspect the text strictly after the last definition's end line;
if it is empty or all-whitespace, walk backward merging line-adjacent
definitions and return the block's start/end lines, else `none`. -/
def getExistingDefinitionBlock (doc : Doc) (orderedDefinitions : List MdLinkDefinition) :
    Option Block :=
  match orderedDefinitions.getLast? with
  | none => none
  | some lastDef =>
    if isEmptyOrWhitespace (textAfterLine doc (lastDef.range.stop.line + 1)) then
      some ⟨walkBackFrom lastDef.range.start.line orderedDefinitions.reverse,
            lastDef.range.start.line⟩
    else none

/-! ### Group Segmenter (`#getDefinitionBlockGroups`) -/

/-- The forward scan of the segmenter: starting from the previous start line
`endLine`, consume definitions while each start line is exactly one greater,
returning the run's final start line and the unconsumed remainder. -/
def takeAdjacentRun (endLine : Nat) : List MdLinkDefinition → Nat × List MdLinkDefinition
  | [] => (endLine, [])
  | d :: rest =>
    if d.range.start.line = endLine + 1 then takeAdjacentRun d.range.start.line rest
    else (endLine, d :: rest)

/-- Embeds `#getDefinitionBlockGroups`, `fuel`-bounded: each step yields the group
of the leading maximal adjacent run and recurses on the remainder (the
source recurses on `definitions.slice(i + 1)`; `fuel ≥ length` is exact
since the remainder is a suffix of the tail). -/
def groupsAux : Nat → List MdLinkDefinition → List Block
  | _, [] => []
  | 0, _ :: _ => []
  | fuel + 1, d :: rest =>
    let t := takeAdjacentRun d.range.start.line rest
    ⟨d.range.start.line, t.1⟩ :: groupsAux fuel t.2

/-- Embeds `#getDefinitionBlockGroups(doc, definitions)`: the maximal runs of
line-adjacent definitions, in document order. -/
def getDefinitionBlockGroups (definitions : List MdLinkDefinition) : List Block :=
  groupsAux definitions.length definitions

/-! ### Definition Organizer (`getOrganizeLinkDefinitionEdits`) -/

/-- The `links.links.filter(link => link.kind === MdLinkKind.Definition)`
step. -/
def organizeDefinitions (links : List MdLink) : List MdLinkDefinition :=
  links.filterMap asDefinition

/-- A group is deleted when no block exists or it starts before the block
(`!existingDefBlockRange || group.startLine < existingDefBlockRange.startLine`). -/
def shouldDelete (blockOpt : Option Block) (g : Block) : Bool :=
  match blockOpt with
  | none => true
  | some b => g.startLine < b.startLine

/-- The deletion edit of a group: clear from the group's start line to the
full length of its end line, replacement text empty. -/
def deletionEditOf (doc : Doc) (g : Block) : TextEdit :=
  ⟨⟨⟨g.startLine, 0⟩, ⟨g.endLine, (getLine doc g.endLine).length⟩⟩, ""⟩

/-- The deletion edits queued by the Organizer's first loop. -/
def organizeDeletionEdits (doc : Doc) (links : List MdLink) : List TextEdit :=
  let definitions := organizeDefinitions links
  let blockOpt := getExistingDefinitionBlock doc definitions
  ((getDefinitionBlockGroups definitions).filter (shouldDelete blockOpt)).map
    (deletionEditOf doc)

/-- The sort relation of
`sortedDefs.sort((a, b) => a.ref.text.localeCompare(b.ref.text))`. -/
def defLe (a b : MdLinkDefinition) : Prop :=
  localeCompare a.ref.text b.ref.text ≤ 0

instance : DecidableRel defLe :=
  fun a b => inferInstanceAs (Decidable (localeCompare a.ref.text b.ref.text ≤ 0))

/-- Whether some link of the snapshot is a `Link`-kind link whose
`Reference` href's ref text equals the definition's label
(`link.kind === MdLinkKind.Link && link.href.kind === HrefKind.Reference &&
link.href.ref === def.ref.text`). -/
def isRefdBy (links : List MdLink) (d : MdLinkDefinition) : Bool :=
  links.any fun l =>
    match l with
    | .link (.reference r) _ _ => r == d.ref.text
    | _ => false

/-- Embeds `newDefs`: the definitions sorted by label (stable, per the JavaScript
sort with a consistent comparator), keeping only referenced ones when
`removeUnused` is set. -/
def organizeNewDefs (removeUnused : Bool) (links : List MdLink) : List MdLinkDefinition :=
  (List.insertionSort defLe (organizeDefinitions links)).filter
    (fun d => !removeUnused || isRefdBy links d)

/-- Embeds `defBlock`: the final definitions rendered one per line as
`[label]: hrefText` and joined with newlines. -/
def organizeDefBlock (removeUnused : Bool) (links : List MdLink) : String :=
  String.intercalate "\n"
    ((organizeNewDefs removeUnused links).map
      (fun d => "[" ++ d.ref.text ++ "]: " ++ d.hrefText))

/-- The raw index scan of `#getLastNonWhitespaceLine`: the greatest index of
a non-whitespace element, scanning from the end. -/
def lastNonWsIndex? (lines : List String) : Option Nat :=
  (List.range lines.length).reverse.find?
    (fun i => !(isEmptyOrWhitespace (lines.getD i "")))

/-- Embeds `#getLastNonWhitespaceLine(doc, orderedDefinitions)` given the last
definition: split the text after the last definition's end line into lines,
scan from the end for a non-whitespace line at index `i` and return
`lastDef.source.range.start.line + 1 + i`, falling back to
`lastDef.source.range.start.line`. -/
def getLastNonWhitespaceLineFrom (doc : Doc) (lastDef : MdLinkDefinition) : Nat :=
  let lines := splitLines (textAfterLine doc (lastDef.range.stop.line + 1))
  match lastNonWsIndex? lines with
  | some i => lastDef.range.start.line + 1 + i
  | none => lastDef.range.start.line

/-- Embeds `getOrganizeLinkDefinitionEdits(doc, options, token)` (cancellation
omitted; the snapshot `links` is the awaited provider result).  Returns the
deletion edits plus either the block replacement edit, the no-block
insertion edit, or nothing at all in the no-op case. -/
def getOrganizeLinkDefinitionEdits (doc : Doc) (removeUnused : Bool)
    (links : List MdLink) : List TextEdit :=
  let definitions := organizeDefinitions links
  match definitions.getLast? with
  | none => []
  | some lastDef =>
    let blockOpt := getExistingDefinitionBlock doc definitions
    let deletionEdits := organizeDeletionEdits doc links
    let newDefs := organizeNewDefs removeUnused links
    let defBlock := organizeDefBlock removeUnused links
    match blockOpt with
    | some blockRange =>
      let hasLeadingWhiteSpace : Bool :=
        blockRange.startLine == 0 ||
          isEmptyOrWhitespace (getLine doc (blockRange.startLine - 1))
      if deletionEdits.isEmpty && newDefs.length == definitions.length &&
          (definitions.zip newDefs).all (fun p => p.1.ref == p.2.ref) then
        []
      else
        deletionEdits ++
          [⟨⟨⟨blockRange.startLine, 0⟩,
             ⟨blockRange.endLine, (getLine doc blockRange.endLine).length⟩⟩,
            (if hasLeadingWhiteSpace then "" else "\n") ++ defBlock⟩]
    | none =>
      let line := getLastNonWhitespaceLineFrom doc lastDef
      deletionEdits ++
        [⟨⟨⟨line + 1, 0⟩, ⟨doc.length, 0⟩⟩,
          (if line == doc.length - 1 then "\n\n" else "\n") ++ defBlock⟩]

/-! ### Link Extractor (`extractLinkDef.ts`) -/

/-- Modelled from the spec: `LinkDefinitionSet.lookup` from
`documentLinks.ts` is not under `src/`; it is a mapping from normalized
label to definition, first occurrence winning on duplicates. -/
def lookupDef (definitions : List MdLinkDefinition) (name : String) :
    Option MdLinkDefinition :=
  definitions.find? (fun d => normalizeRefName d.ref.text == normalizeRefName name)

/-- The candidate placeholder names: `"def"`, then `"def2"`, `"def3"`, …
(`i === 1 ? base : base + i`). -/
def candidateName (i : Nat) : String :=
  if i = 1 then "def" else "def" ++ natToString i

/-- The search loop of `#getPlaceholder`, `fuel`-bounded: try candidate `i`,
then `i + 1`, … until one is absent from the definition set.  The source
loop is unbounded; `definitions.length + 1` fuel always suffices (proved
below by pigeonhole). -/
def searchPlaceholder (definitions : List MdLinkDefinition) : Nat → Nat → String
  | 0, i => candidateName i
  | fuel + 1, i =>
    let name := candidateName i
    if (lookupDef definitions name).isNone then name
    else searchPlaceholder definitions fuel (i + 1)

/-- Embeds `#getPlaceholder(definitions)`: the first of `"def"`, `"def2"`, … whose
lookup in the set fails. -/
def getPlaceholder (definitions : List MdLinkDefinition) : String :=
  searchPlaceholder definitions (definitions.length + 1) 1

/-- Modelled from the spec: `isSameResource` from `util/path.ts` is not
under `src/`; it compares resolved resource identity, modelled as equality
of the resource identifier. -/
def isSameResource (a b : String) : Bool :=
  a == b

/-- Embeds `#matchesHref(href, link)`: External hrefs match on resource identity;
Internal hrefs match on resource identity and fragment; nothing else
matches. -/
def matchesHref (href : Href) (link : MdLink) : Bool :=
  match linkHrefX link, href with
  | .external u1, .external u2 => isSameResource u1 u2
  | .internal p1 f1, .internal p2 f2 => isSameResource p1 p2 && (f1 == f2)
  | _, _ => false

/-- Embeds `getLinkTargetText(doc, link)`: the text of the autolink's target range,
or the inline link's target range shrunk by one character on each side
(inside the parentheses). -/
def getLinkTargetText (doc : Doc) (link : MdLink) : String :=
  match link with
  | .autoLink _ _ tr => getText doc tr
  | .link _ _ tr =>
    getText doc ⟨translateChar tr.start 1, translateChar tr.stop (-1)⟩
  | .definition d => getText doc d.range

/-- Embeds `createAddDefinitionEdit(doc, existingDefinitions, newDefs)`: render the
new pairs one per line; with no existing block insert at
`(doc.lineCount, 0)` prefixed by two newlines, else insert at the end of
the block's end line prefixed by one newline.  Both are pure insertions. -/
def createAddDefinitionEdit (doc : Doc) (existingDefinitions : List MdLinkDefinition)
    (newDefs : List (String × String)) : TextEdit :=
  let defBlock := getExistingDefinitionBlock doc existingDefinitions
  let newDefText := String.intercalate "\n"
    (newDefs.map (fun p => "[" ++ p.2 ++ "]: " ++ p.1))
  match defBlock with
  | none => ⟨⟨⟨doc.length, 0⟩, ⟨doc.length, 0⟩⟩, "\n\n" ++ newDefText⟩
  | some b =>
    let insertPos : Pos := ⟨b.endLine, (getLine doc b.endLine).length⟩
    ⟨⟨insertPos, insertPos⟩, "\n" ++ newDefText⟩

/-- One step of the rewrite loop of `#getExtractLinkAction`: a `Link` or
`AutoLink` whose href matches the target's gets its target range replaced
by `[placeholder]`. -/
def rewriteStep (targetHref : Href) (placeholder : String)
    (acc : List TextEdit) (l : MdLink) : List TextEdit :=
  if isInlineOrAuto l then
    if matchesHref targetHref l then
      acc ++ [⟨rewriteTargetRange l, "[" ++ placeholder ++ "]"⟩]
    else acc
  else acc

/-- The rewrite edits accumulated by the loop over `linkInfo.links`. -/
def extractRewriteEdits (targetHref : Href) (placeholder : String)
    (links : List MdLink) : List TextEdit :=
  links.foldl (rewriteStep targetHref placeholder) []

/-- A code action: title, optional disabled reason, workspace edits, and
the optional follow-up rename position. -/
structure CodeAction where
  title : String
  disabledReason : Option String
  edits : List TextEdit
  renameCommandAt : Option Pos
deriving DecidableEq

/-- The "not on link" disabled sentinel action. -/
def notOnLinkAction : CodeAction :=
  ⟨"Extract to link definition", some "Not on link", [], none⟩

/-- The "already a reference" disabled sentinel action. -/
def alreadyRefLinkAction : CodeAction :=
  ⟨"Extract to link definition", some "Link is already a reference", [], none⟩

/-- The definition-insertion edit of `#getExtractLinkAction`: the trimmed
literal target text of the target link paired with the allocated
placeholder, handed to `createAddDefinitionEdit` with the snapshot's
definitions. -/
def extractDefEdit (doc : Doc) (linkInfo : MdDocumentLinksInfo)
    (targetLink : MdLink) : TextEdit :=
  createAddDefinitionEdit doc (linkInfo.links.filterMap asDefinition)
    [((getLinkTargetText doc targetLink).trim, getPlaceholder linkInfo.definitions)]

/-- The body of `#getExtractLinkAction`: the rewrite edits followed by the
single insertion of the new definition (as built above), plus the rename
command just inside the new reference brackets. -/
def getExtractLinkAction (doc : Doc) (linkInfo : MdDocumentLinksInfo)
    (targetLink : MdLink) : CodeAction :=
  let placeholder := getPlaceholder linkInfo.definitions
  let rewriteEdits := extractRewriteEdits (linkHrefX targetLink) placeholder linkInfo.links
  let defEdit := extractDefEdit doc linkInfo targetLink
  { title := "Extract to link definition"
    disabledReason := none
    edits := rewriteEdits ++ [⟨⟨defEdit.range.start, defEdit.range.start⟩, defEdit.newText⟩]
    renameCommandAt := some (translateChar (linkTargetRangeX targetLink).start 1) }

/-- Modelled from the spec: `codeActionKindContains` from
`codeActions/util.ts` is not under `src/`; kind `a` contains `b` when they
are equal or `b` extends `a` with a dot-separated segment. -/
def codeActionKindContains (a b : String) : Bool :=
  a == b || (a ++ ".").isPrefixOf b

/-- Embeds `#isEnabled(context)`: enabled when the context has no `only` filter or
some requested kind is within `Refactor`. -/
def isEnabled (contextOnly : Option (List String)) : Bool :=
  match contextOnly with
  | none => true
  | some kinds => kinds.any (fun kind => codeActionKindContains "refactor" kind)

/-- The filter of `getActions`: non-definition links whose source range
intersects the requested range. -/
def linkInRange (range : Range) (l : MdLink) : Bool :=
  isNotDefinition l && rangeIntersects range (linkSourceRange l)

/-- The sort relation of
`linksInRange.sort((a, b) => comparePosition(b.source.range.start, a.source.range.start))`:
descending source range start. -/
def descStart (a b : MdLink) : Prop :=
  comparePosition (linkSourceRange b).start (linkSourceRange a).start ≤ 0

instance : DecidableRel descStart :=
  fun a b => inferInstanceAs (Decidable
    (comparePosition (linkSourceRange b).start (linkSourceRange a).start ≤ 0))

/-- Embeds `getActions(doc, range, context, token)` (cancellation omitted; the
snapshot `linkInfo` is the awaited provider result).  Produces the "not on
link" sentinel, the "already a reference" sentinel, or the single extract
action for the most specific qualifying link. -/
def getActions (doc : Doc) (range : Range) (contextOnly : Option (List String))
    (linkInfo : MdDocumentLinksInfo) : List CodeAction :=
  if !isEnabled contextOnly then []
  else
    let linksInRange := linkInfo.links.filter (linkInRange range)
    if linksInRange.isEmpty then [notOnLinkAction]
    else
      match (List.insertionSort descStart linksInRange).find?
          (fun l => isExtOrInt (linkHrefX l)) with
      | none => [alreadyRefLinkAction]
      | some targetLink => [getExtractLinkAction doc linkInfo targetLink]

/-! ## Order lemmas for the comparators -/

theorem charsLt_asymm : ∀ {a b : List Char}, charsLt a b = true → charsLt b a = false
  | [], [] => by simp [charsLt]
  | [], _ :: _ => by simp [charsLt]
  | _ :: _, [] => by simp [charsLt]
  | c :: cs, d :: ds => by
    simp only [charsLt]
    intro h
    by_cases hcd : c.toNat < d.toNat
    · have hdc : ¬ d.toNat < c.toNat := by omega
      simp [hcd, hdc]
    · by_cases hdc : d.toNat < c.toNat
      · simp [hcd, hdc] at h
      · simp only [if_neg hcd, if_neg hdc] at h
        simp only [if_neg hdc, if_neg hcd]
        exact charsLt_asymm h

theorem charsLt_cases : ∀ (c a b : List Char), charsLt c a = true →
    charsLt c b = true ∨ charsLt b a = true
  | [], [], _ => by simp [charsLt]
  | [], _ :: _, [] => fun _ => .inr (by simp [charsLt])
  | [], _ :: _, _ :: _ => fun _ => .inl (by simp [charsLt])
  | _ :: _, [], _ => by simp [charsLt]
  | x :: xs, y :: ys, [] => fun _ => .inr (by simp [charsLt])
  | x :: xs, y :: ys, z :: zs => by
    simp only [charsLt]
    intro h
    by_cases hxy : x.toNat < y.toNat
    · by_cases hxz : x.toNat < z.toNat
      · exact .inl (by simp [hxz])
      · have hzy : z.toNat < y.toNat := by omega
        exact .inr (by simp [hzy])
    · by_cases hyx : y.toNat < x.toNat
      · simp [hxy, hyx] at h
      · simp only [if_neg hxy, if_neg hyx] at h
        by_cases hxz : x.toNat < z.toNat
        · exact .inl (by simp [hxz])
        · by_cases hzx : z.toNat < x.toNat
          · have hzy : z.toNat < y.toNat := by omega
            exact .inr (by simp [hzy])
          · rcases charsLt_cases xs ys zs h with h' | h'
            · exact .inl (by simp [hxz, hzx, h'])
            · have h1 : ¬ z.toNat < y.toNat := by omega
              have h2 : ¬ y.toNat < z.toNat := by omega
              exact .inr (by simp [h1, h2, h'])

/-- Embeds `charsLt` complements are transitive (used for the sort relation). -/
theorem charsLt_neg_trans {a b c : List Char} (h1 : charsLt b a = false)
    (h2 : charsLt c b = false) : charsLt c a = false := by
  cases h : charsLt c a
  · rfl
  · rcases charsLt_cases c a b h with h' | h'
    · rw [h'] at h2; cases h2
    · rw [h'] at h1; cases h1

theorem localeCompare_nonpos_iff {a b : String} :
    localeCompare a b ≤ 0 ↔ charsLt b.data a.data = false := by
  unfold localeCompare
  by_cases h1 : charsLt a.data b.data
  · simp [h1, charsLt_asymm h1]
  · by_cases h2 : charsLt b.data a.data
    · simp [h1, h2]
    · simp [h1, h2]

instance : IsTotal MdLinkDefinition defLe := by
  constructor
  intro a b
  unfold defLe
  rw [localeCompare_nonpos_iff, localeCompare_nonpos_iff]
  cases h : charsLt b.ref.text.data a.ref.text.data
  · exact .inl rfl
  · exact .inr (charsLt_asymm h)

instance : IsTrans MdLinkDefinition defLe := by
  constructor
  intro a b c hab hbc
  unfold defLe at *
  rw [localeCompare_nonpos_iff] at *
  exact charsLt_neg_trans hab hbc

theorem comparePosition_nonpos_iff {a b : Pos} :
    comparePosition a b ≤ 0 ↔ posLe a b := by
  unfold comparePosition posLe
  by_cases h : a.line ≠ b.line
  · simp only [if_pos h]
    omega
  · simp only [if_neg h]
    omega

theorem posLe_total (a b : Pos) : posLe a b ∨ posLe b a := by
  unfold posLe; omega

theorem posLe_trans {a b c : Pos} (h1 : posLe a b) (h2 : posLe b c) : posLe a c := by
  unfold posLe at *; omega

instance : IsTotal MdLink descStart := by
  constructor
  intro a b
  unfold descStart
  rw [comparePosition_nonpos_iff, comparePosition_nonpos_iff]
  exact (posLe_total _ _).symm.imp id id

instance : IsTrans MdLink descStart := by
  constructor
  intro a b c hab hbc
  unfold descStart at *
  rw [comparePosition_nonpos_iff] at *
  exact posLe_trans hbc hab

/-! ## C2: sorting and rendering of the organized block -/

/-- C2: for every definition list, every definition kept in the Organizer's
final list is one of the original definitions (so its literal target text
`hrefText` is unchanged), the labels of the final list are in non-decreasing
order under the locale comparison, and the rendered block is the kept
definitions one per line in the exact form `[label]: hrefText`, joined by
newlines. -/
theorem organize_sort_and_render (removeUnused : Bool) (links : List MdLink) :
    (∀ d ∈ organizeNewDefs removeUnused links, d ∈ organizeDefinitions links) ∧
    List.Pairwise (fun a b => localeCompare a b ≤ 0)
      ((organizeNewDefs removeUnused links).map (fun d => d.ref.text)) ∧
    organizeDefBlock removeUnused links =
      String.intercalate "\n" ((organizeNewDefs removeUnused links).map
        (fun d => "[" ++ d.ref.text ++ "]: " ++ d.hrefText)) := by
  refine ⟨?_, ?_, rfl⟩
  · intro d hd
    have h1 : d ∈ List.insertionSort defLe (organizeDefinitions links) :=
      (List.mem_filter.mp hd).1
    exact (List.perm_insertionSort defLe (organizeDefinitions links)).mem_iff.mp h1
  · apply List.pairwise_map.mpr
    have hs : List.Pairwise defLe (List.insertionSort defLe (organizeDefinitions links)) :=
      List.sorted_insertionSort defLe (organizeDefinitions links)
    exact List.Pairwise.filter _ hs

/-! ## C1: the no-op (idempotence) branch of the Organizer -/

/-- C1: when a trailing definition block exists, no deletion edits were
queued, and the filtered sorted list has the same length and the same
`ref`s position-by-position as the original definition list (hence the same
order and label set), the Organizer returns no edits at all. -/
theorem organize_noop (doc : Doc) (removeUnused : Bool) (links : List MdLink)
    (hblock : (getExistingDefinitionBlock doc (organizeDefinitions links)).isSome = true)
    (hdel : organizeDeletionEdits doc links = [])
    (hlen : (organizeNewDefs removeUnused links).length = (organizeDefinitions links).length)
    (hord : ∀ p ∈ (organizeDefinitions links).zip (organizeNewDefs removeUnused links),
      p.1.ref = p.2.ref) :
    getOrganizeLinkDefinitionEdits doc removeUnused links = [] := by
  obtain ⟨b, hb⟩ := Option.isSome_iff_exists.mp hblock
  have hcond : ((organizeDeletionEdits doc links).isEmpty &&
      ((organizeNewDefs removeUnused links).length == (organizeDefinitions links).length) &&
      ((organizeDefinitions links).zip (organizeNewDefs removeUnused links)).all
        (fun p => p.1.ref == p.2.ref)) = true := by
    simp only [Bool.and_eq_true, List.isEmpty_iff, beq_iff_eq, List.all_eq_true]
    exact ⟨⟨hdel, hlen⟩, hord⟩
  unfold getOrganizeLinkDefinitionEdits
  simp only [hb]
  cases hlast : (organizeDefinitions links).getLast? with
  | none => rfl
  | some lastDef => simp [hcond]

/-- C1 witness: a two-definition block, already sorted, with nothing to
delete: the Organizer returns no edits. -/
theorem organize_noop_witness :
    ((getExistingDefinitionBlock
        ["[a]: http://a", "[b]: http://b"]
        (organizeDefinitions
          [MdLink.definition ⟨⟨"a", ⟨⟨0, 1⟩, ⟨0, 2⟩⟩⟩, ⟨⟨0, 0⟩, ⟨0, 13⟩⟩, "http://a"⟩,
           MdLink.definition ⟨⟨"b", ⟨⟨1, 1⟩, ⟨1, 2⟩⟩⟩, ⟨⟨1, 0⟩, ⟨1, 13⟩⟩, "http://b"⟩])).isSome
      = true) ∧
    getOrganizeLinkDefinitionEdits ["[a]: http://a", "[b]: http://b"] false
      [MdLink.definition ⟨⟨"a", ⟨⟨0, 1⟩, ⟨0, 2⟩⟩⟩, ⟨⟨0, 0⟩, ⟨0, 13⟩⟩, "http://a"⟩,
       MdLink.definition ⟨⟨"b", ⟨⟨1, 1⟩, ⟨1, 2⟩⟩⟩, ⟨⟨1, 0⟩, ⟨1, 13⟩⟩, "http://b"⟩] = [] :=
  ⟨by decide, organize_noop _ _ _ (by decide) (by decide) (by decide) (by decide)⟩

/-! ## C3: the `removeUnused` filter -/

/-- C3 counterexample input: one definition labelled `foo` and one reference
link written `[…][Foo]` — the labels agree after normalization but differ as
exact strings. -/
def c3Def : MdLinkDefinition :=
  ⟨⟨"foo", ⟨⟨2, 1⟩, ⟨2, 4⟩⟩⟩, ⟨⟨2, 0⟩, ⟨2, 13⟩⟩, "http://x"⟩

/-- C3 counterexample snapshot links. -/
def c3Links : List MdLink :=
  [MdLink.definition c3Def,
   MdLink.link (Href.reference "Foo") ⟨⟨0, 0⟩, ⟨0, 10⟩⟩ ⟨⟨0, 4⟩, ⟨0, 9⟩⟩]

/-- C3 counterexample: the definition `foo`'s normalized label is referenced
by a `ReferenceLink` (label `Foo`, equal after case normalization), yet with
`removeUnused = true` the definition does not survive into the output list —
the source compares labels with `===`, not case/whitespace-insensitively. -/
theorem organize_removeUnused_normalized_counterexample :
    (∃ s r tr, MdLink.link (Href.reference s) r tr ∈ c3Links ∧
      normalizeRefName s = normalizeRefName c3Def.ref.text) ∧
    c3Def ∈ organizeDefinitions c3Links ∧
    c3Def ∉ organizeNewDefs true c3Links :=
  ⟨⟨"Foo", ⟨⟨0, 0⟩, ⟨0, 10⟩⟩, ⟨⟨0, 4⟩, ⟨0, 9⟩⟩, by decide, by decide⟩,
   by decide, by decide⟩

/-- C3 (amended): with `removeUnused = true`, a definition appears in the
Organizer's output list iff it is one of the snapshot's definitions and
some `Link`-kind link of the snapshot has a `Reference` href whose ref text
equals the definition's label exactly (case- and whitespace-sensitive). -/
theorem organize_removeUnused_exact (links : List MdLink) (d : MdLinkDefinition) :
    d ∈ organizeNewDefs true links ↔
      d ∈ organizeDefinitions links ∧
        ∃ r tr, MdLink.link (Href.reference d.ref.text) r tr ∈ links := by
  unfold organizeNewDefs
  rw [List.mem_filter]
  have hperm := List.perm_insertionSort defLe (organizeDefinitions links)
  constructor
  · rintro ⟨hmem, hp⟩
    refine ⟨hperm.mem_iff.mp hmem, ?_⟩
    simp only [Bool.not_true, Bool.false_or] at hp
    obtain ⟨l, hl, hmatch⟩ := List.any_eq_true.mp hp
    cases l with
    | link h r tr =>
      cases h with
      | reference s =>
        simp only [beq_iff_eq] at hmatch
        subst hmatch
        exact ⟨r, tr, hl⟩
      | external _ => simp at hmatch
      | internal _ _ => simp at hmatch
    | autoLink h r tr => simp at hmatch
    | definition defn => simp at hmatch
  · rintro ⟨hmem, r, tr, hl⟩
    refine ⟨hperm.mem_iff.mpr hmem, ?_⟩
    simp only [Bool.not_true, Bool.false_or]
    exact List.any_eq_true.mpr ⟨MdLink.link (Href.reference d.ref.text) r tr, hl,
      by simp⟩

/-! ## C4: the Block Locator -/

/-- The walk described by the spec: keep absorbing the preceding start line
while it is exactly one less than the current block start. -/
def specBlockStart : Nat → List Nat → Nat
  | cur, [] => cur
  | cur, k :: rest => if k + 1 = cur then specBlockStart k rest else cur

theorem walkBackFrom_eq_spec : ∀ (l : List MdLinkDefinition) (prev : Nat),
    (∀ d ∈ l, d.range.start.line < prev) →
    l.Pairwise (fun a b => b.range.start.line < a.range.start.line) →
    walkBackFrom prev l = specBlockStart prev (l.map (fun d => d.range.start.line))
  | [], prev => fun _ _ => rfl
  | d :: rest, prev => by
    intro hbound hpair
    have hlt : d.range.start.line < prev := hbound d (List.mem_cons_self d rest)
    simp only [walkBackFrom, List.map_cons, specBlockStart]
    by_cases h : d.range.start.line + 1 = prev
    · have h1 : ¬ d.range.start.line < prev - 1 := by omega
      rw [if_neg h1, if_pos h]
      exact walkBackFrom_eq_spec rest d.range.start.line
        (fun e he => (List.pairwise_cons.mp hpair).1 e he)
        (List.pairwise_cons.mp hpair).2
    · have h1 : d.range.start.line < prev - 1 := by omega
      rw [if_pos h1, if_neg h]

theorem reverse_eq_getLast_cons {α : Type} (l : List α) (h : l ≠ []) :
    l.reverse = l.getLast h :: l.dropLast.reverse := by
  conv_lhs => rw [← List.dropLast_append_getLast h]
  rw [List.reverse_append]
  rfl

theorem sorted_lt_getLast (l : List MdLinkDefinition) (h : l ≠ [])
    (hs : l.Pairwise (fun a b => a.range.start.line < b.range.start.line)) :
    ∀ d ∈ l.dropLast, d.range.start.line < (l.getLast h).range.start.line := by
  intro d hd
  have heq := List.dropLast_append_getLast h
  have hs' : (l.dropLast ++ [l.getLast h]).Pairwise
      (fun a b => a.range.start.line < b.range.start.line) := by rw [heq]; exact hs
  exact (List.pairwise_append.mp hs').2.2 d hd _ (List.mem_singleton.mpr rfl)

theorem getLast?_ne_nil {α : Type} {l : List α} {a : α} (h : l.getLast? = some a) :
    l ≠ [] := by
  intro hnil
  subst hnil
  cases h

theorem getLast?_eq_getLast' {α : Type} {l : List α} {a : α} (h : l.getLast? = some a)
    (hne : l ≠ []) : l.getLast hne = a := by
  rw [List.getLast?_eq_getLast l hne] at h
  exact Option.some.inj h

/-- C4: the Block Locator contract.  For the empty list the locator returns
`none`; when the text strictly after the last definition's end line contains
non-whitespace it returns `none`; otherwise it returns the block whose end
line is the last definition's start line and whose start line is reached by
walking backward from the last definition while each definition's start line
is exactly one less than the next one's (so a single definition with a blank
tail yields a one-line block). -/
theorem getExistingDefinitionBlock_spec (doc : Doc) (defs : List MdLinkDefinition)
    (lastDef : MdLinkDefinition)
    (hsorted : defs.Pairwise (fun a b => a.range.start.line < b.range.start.line))
    (hlast : defs.getLast? = some lastDef) :
    (getExistingDefinitionBlock doc [] = none) ∧
    (¬ isEmptyOrWhitespace (textAfterLine doc (lastDef.range.stop.line + 1)) = true →
      getExistingDefinitionBlock doc defs = none) ∧
    (isEmptyOrWhitespace (textAfterLine doc (lastDef.range.stop.line + 1)) = true →
      getExistingDefinitionBlock doc defs =
        some ⟨specBlockStart lastDef.range.start.line
                (defs.dropLast.reverse.map (fun d => d.range.start.line)),
              lastDef.range.start.line⟩) := by
  have hne : defs ≠ [] := getLast?_ne_nil hlast
  have hgl : defs.getLast hne = lastDef := getLast?_eq_getLast' hlast hne
  refine ⟨rfl, ?_, ?_⟩
  · intro hws
    unfold getExistingDefinitionBlock
    simp only [hlast]
    rw [if_neg hws]
  · intro hws
    unfold getExistingDefinitionBlock
    simp only [hlast]
    rw [if_pos hws]
    have hrev : defs.reverse = lastDef :: defs.dropLast.reverse := by
      rw [reverse_eq_getLast_cons defs hne, hgl]
    rw [hrev]
    have hstep : walkBackFrom lastDef.range.start.line (lastDef :: defs.dropLast.reverse) =
        walkBackFrom lastDef.range.start.line defs.dropLast.reverse := by
      simp only [walkBackFrom]
      rw [if_neg (by omega)]
    rw [hstep]
    rw [walkBackFrom_eq_spec]
    · intro d hd
      have := sorted_lt_getLast defs hne hsorted d (List.mem_reverse.mp hd)
      rw [hgl] at this
      exact this
    · exact List.pairwise_reverse.mpr
        (List.Pairwise.sublist (List.dropLast_sublist defs) hsorted)

/-- C4 witness: two adjacent definitions with a blank tail form a block of
lines 0–1. -/
theorem getExistingDefinitionBlock_spec_witness :
    (([⟨⟨"a", ⟨⟨0, 1⟩, ⟨0, 2⟩⟩⟩, ⟨⟨0, 0⟩, ⟨0, 8⟩⟩, "/a"⟩,
       ⟨⟨"b", ⟨⟨1, 1⟩, ⟨1, 2⟩⟩⟩, ⟨⟨1, 0⟩, ⟨1, 8⟩⟩, "/b"⟩] :
        List MdLinkDefinition).Pairwise
        (fun a b => a.range.start.line < b.range.start.line)) ∧
    getExistingDefinitionBlock ["[a]: /a", "[b]: /b", "  "]
      [⟨⟨"a", ⟨⟨0, 1⟩, ⟨0, 2⟩⟩⟩, ⟨⟨0, 0⟩, ⟨0, 8⟩⟩, "/a"⟩,
       ⟨⟨"b", ⟨⟨1, 1⟩, ⟨1, 2⟩⟩⟩, ⟨⟨1, 0⟩, ⟨1, 8⟩⟩, "/b"⟩] = some ⟨0, 1⟩ := by
  refine ⟨by decide, ?_⟩
  have h := (getExistingDefinitionBlock_spec ["[a]: /a", "[b]: /b", "  "]
    [⟨⟨"a", ⟨⟨0, 1⟩, ⟨0, 2⟩⟩⟩, ⟨⟨0, 0⟩, ⟨0, 8⟩⟩, "/a"⟩,
     ⟨⟨"b", ⟨⟨1, 1⟩, ⟨1, 2⟩⟩⟩, ⟨⟨1, 0⟩, ⟨1, 8⟩⟩, "/b"⟩]
    ⟨⟨"b", ⟨⟨1, 1⟩, ⟨1, 2⟩⟩⟩, ⟨⟨1, 0⟩, ⟨1, 8⟩⟩, "/b"⟩ (by decide) (by decide)).2.2 (by decide)
  exact h.trans (by decide)

/-! ## C10: the Definition Inserter's anchor -/

/-- C10: `createAddDefinitionEdit` always returns a pure insertion edit
(range start equals range end); when an existing block is located, its end
line is the last definition's start line and the insertion position is the
end of that line — so whenever the last definition spans more than one line,
the insertion lands strictly inside that definition (on its first line)
rather than after its final line. -/
theorem createAddDefinitionEdit_anchor (doc : Doc) (defs : List MdLinkDefinition)
    (newDefs : List (String × String)) (lastDef : MdLinkDefinition)
    (hlast : defs.getLast? = some lastDef) :
    (∀ (doc' : Doc) (defs' : List MdLinkDefinition) (nd' : List (String × String)),
      (createAddDefinitionEdit doc' defs' nd').range.start =
        (createAddDefinitionEdit doc' defs' nd').range.stop) ∧
    (∀ b, getExistingDefinitionBlock doc defs = some b →
      b.endLine = lastDef.range.start.line ∧
      (createAddDefinitionEdit doc defs newDefs).range.start =
        ⟨lastDef.range.start.line, (getLine doc lastDef.range.start.line).length⟩ ∧
      (lastDef.range.start.line < lastDef.range.stop.line →
        posLt (createAddDefinitionEdit doc defs newDefs).range.start lastDef.range.stop)) := by
  constructor
  · intro doc' defs' nd'
    unfold createAddDefinitionEdit
    cases getExistingDefinitionBlock doc' defs' <;> rfl
  · intro b hb
    have hend : b.endLine = lastDef.range.start.line := by
      unfold getExistingDefinitionBlock at hb
      simp only [hlast] at hb
      by_cases hws : isEmptyOrWhitespace
          (textAfterLine doc (lastDef.range.stop.line + 1)) = true
      · rw [if_pos hws] at hb
        cases Option.some.inj hb
        rfl
      · rw [if_neg hws] at hb
        cases hb
    have hpos : (createAddDefinitionEdit doc defs newDefs).range.start =
        ⟨lastDef.range.start.line, (getLine doc lastDef.range.start.line).length⟩ := by
      unfold createAddDefinitionEdit
      rw [hb]
      simp only [hend]
    refine ⟨hend, hpos, ?_⟩
    intro hml
    rw [hpos]
    exact Or.inl hml

/-- C10 witness: a single two-line definition with a blank tail; the new
definition is inserted at the end of the definition's first line, strictly
inside the definition. -/
theorem createAddDefinitionEdit_anchor_witness :
    (([⟨⟨"a", ⟨⟨0, 1⟩, ⟨0, 2⟩⟩⟩, ⟨⟨0, 0⟩, ⟨1, 6⟩⟩, "/x"⟩] :
        List MdLinkDefinition).getLast? =
      some ⟨⟨"a", ⟨⟨0, 1⟩, ⟨0, 2⟩⟩⟩, ⟨⟨0, 0⟩, ⟨1, 6⟩⟩, "/x"⟩) ∧
    getExistingDefinitionBlock ["[a]: /x", " title", ""]
      [⟨⟨"a", ⟨⟨0, 1⟩, ⟨0, 2⟩⟩⟩, ⟨⟨0, 0⟩, ⟨1, 6⟩⟩, "/x"⟩] = some ⟨0, 0⟩ ∧
    posLt (createAddDefinitionEdit ["[a]: /x", " title", ""]
        [⟨⟨"a", ⟨⟨0, 1⟩, ⟨0, 2⟩⟩⟩, ⟨⟨0, 0⟩, ⟨1, 6⟩⟩, "/x"⟩]
        [("/x", "def")]).range.start
      (⟨⟨0, 0⟩, ⟨1, 6⟩⟩ : Range).stop := by
  refine ⟨by decide, by decide, ?_⟩
  exact ((createAddDefinitionEdit_anchor ["[a]: /x", " title", ""]
    [⟨⟨"a", ⟨⟨0, 1⟩, ⟨0, 2⟩⟩⟩, ⟨⟨0, 0⟩, ⟨1, 6⟩⟩, "/x"⟩]
    [("/x", "def")]
    ⟨⟨"a", ⟨⟨0, 1⟩, ⟨0, 2⟩⟩⟩, ⟨⟨0, 0⟩, ⟨1, 6⟩⟩, "/x"⟩ (by decide)).2
    ⟨0, 0⟩ (by decide)).2.2 (by decide)

/-! ## C5: shared-target collapsing in the Extractor -/

/-- The declarative form of one rewrite-loop step: a `Link` or `AutoLink`
whose href structurally matches the target's yields the `[placeholder]`
rewrite of its target range; every other link yields nothing. -/
def rewriteEditOf (targetHref : Href) (placeholder : String) (l : MdLink) :
    Option TextEdit :=
  if isInlineOrAuto l && matchesHref targetHref l then
    some ⟨rewriteTargetRange l, "[" ++ placeholder ++ "]"⟩
  else none

theorem extractRewriteEdits_foldl_general (targetHref : Href) (placeholder : String) :
    ∀ (links : List MdLink) (acc : List TextEdit),
      links.foldl (rewriteStep targetHref placeholder) acc =
        acc ++ links.filterMap (rewriteEditOf targetHref placeholder)
  | [], acc => by simp
  | l :: rest, acc => by
    rw [List.foldl_cons, List.filterMap_cons,
      extractRewriteEdits_foldl_general targetHref placeholder rest]
    unfold rewriteStep rewriteEditOf
    by_cases h1 : isInlineOrAuto l = true
    · by_cases h2 : matchesHref targetHref l = true
      · simp [h1, h2, List.append_assoc]
      · simp [h1, h2]
    · simp [h1]

theorem extractRewriteEdits_eq_filterMap (targetHref : Href) (placeholder : String)
    (links : List MdLink) :
    extractRewriteEdits targetHref placeholder links =
      links.filterMap (rewriteEditOf targetHref placeholder) := by
  unfold extractRewriteEdits
  rw [extractRewriteEdits_foldl_general]
  rfl

/-- C5: the edits of an extract action are exactly one `[placeholder]`
rewrite of the target range of each inline or autolink link whose href
matches the target link's href structurally (`External`: same resource;
`Internal`: same resource and same fragment) — in snapshot order, for no
other link — followed by exactly one definition-insertion edit, regardless
of how many occurrences were rewritten. -/
theorem extract_action_edits (doc : Doc) (linkInfo : MdDocumentLinksInfo)
    (targetLink : MdLink) :
    (getExtractLinkAction doc linkInfo targetLink).edits =
      linkInfo.links.filterMap
        (rewriteEditOf (linkHrefX targetLink) (getPlaceholder linkInfo.definitions)) ++
      [⟨⟨(extractDefEdit doc linkInfo targetLink).range.start,
         (extractDefEdit doc linkInfo targetLink).range.start⟩,
        (extractDefEdit doc linkInfo targetLink).newText⟩] := by
  unfold getExtractLinkAction
  dsimp only
  rw [extractRewriteEdits_eq_filterMap]

/-! ## C7: the no-block insertion point -/

theorem splitLinesData_cons_ne (c : Char) (l : List Char) (hc : ¬ c = '\n') :
    splitLinesData (c :: l) =
      match splitLinesData l with
      | [] => [[c]]
      | x :: xs => (c :: x) :: xs := by
  simp only [splitLinesData, if_neg hc]

theorem splitLinesData_no_newline : ∀ (a : List Char), '\n' ∉ a →
    splitLinesData a = [a]
  | [], _ => rfl
  | c :: rest, h => by
    have hc : ¬ c = '\n' := fun hc => h (hc ▸ List.mem_cons_self c rest)
    have hr : '\n' ∉ rest := fun hr => h (List.mem_cons_of_mem c hr)
    rw [splitLinesData_cons_ne c rest hc, splitLinesData_no_newline rest hr]

theorem splitLinesData_append_newline : ∀ (a r : List Char), '\n' ∉ a →
    splitLinesData (a ++ '\n' :: r) = a :: splitLinesData r
  | [], r, _ => by simp [splitLinesData]
  | c :: a, r, h => by
    have hc : ¬ c = '\n' := fun hc => h (hc ▸ List.mem_cons_self c a)
    have ha : '\n' ∉ a := fun ha => h (List.mem_cons_of_mem c ha)
    rw [List.cons_append, splitLinesData_cons_ne c _ hc,
      splitLinesData_append_newline a r ha]

theorem splitLines_joinLines : ∀ (l : List String), l ≠ [] →
    (∀ s ∈ l, '\n' ∉ s.data) → splitLines (joinLines l) = l
  | [], h, _ => absurd rfl h
  | [s], _, hclean => by
    have hs : '\n' ∉ s.data := hclean s (List.mem_singleton.mpr rfl)
    show (splitLinesData s.data).map String.mk = [s]
    rw [splitLinesData_no_newline s.data hs]
    rfl
  | s :: t :: rest, _, hclean => by
    have hs : '\n' ∉ s.data := hclean s (List.mem_cons_self _ _)
    have hdata : (joinLines (s :: t :: rest)).data =
        s.data ++ '\n' :: (joinLines (t :: rest)).data := by
      show (s ++ "\n" ++ joinLines (t :: rest)).data = _
      simp
    have ih := splitLines_joinLines (t :: rest) (by simp)
      (fun x hx => hclean x (List.mem_cons_of_mem s hx))
    show (splitLinesData (joinLines (s :: t :: rest)).data).map String.mk = _
    rw [hdata, splitLinesData_append_newline _ _ hs]
    show String.mk s.data :: splitLines (joinLines (t :: rest)) = s :: t :: rest
    rw [ih]

theorem find?_range_reverse_some {p : Nat → Bool} :
    ∀ {n i : Nat}, (List.range n).reverse.find? p = some i →
      i < n ∧ p i = true ∧ ∀ j, i < j → j < n → p j = false := by
  intro n
  induction n with
  | zero => intro i h; simp [List.range_zero] at h
  | succ n ih =>
    intro i h
    rw [List.range_succ, List.reverse_append, List.reverse_singleton,
      List.singleton_append] at h
    by_cases hp : p n = true
    · rw [List.find?_cons_of_pos _ hp] at h
      cases Option.some.inj h
      exact ⟨Nat.lt_succ_self _, hp, fun j h1 h2 => absurd h2 (by omega)⟩
    · rw [List.find?_cons_of_neg _ hp] at h
      obtain ⟨h1, h2, h3⟩ := ih h
      refine ⟨by omega, h2, fun j hj1 hj2 => ?_⟩
      by_cases hj : j = n
      · subst hj
        exact Bool.not_eq_true _ ▸ eq_false_of_ne_true hp
      · exact h3 j hj1 (by omega)

theorem find?_range_reverse_none {p : Nat → Bool} {n : Nat}
    (h : (List.range n).reverse.find? p = none) :
    ∀ j, j < n → p j = false := by
  intro j hj
  have := List.find?_eq_none.mp h j
    (List.mem_reverse.mpr (List.mem_range.mpr hj))
  exact eq_false_of_ne_true this

theorem drop_getD_eq (doc : Doc) (L j : Nat) :
    (doc.drop L).getD j "" = doc.getD (L + j) "" := by
  rw [List.getD_eq_getElem?_getD, List.getD_eq_getElem?_getD, List.getElem?_drop]

theorem getLastNonWhitespaceLineFrom_eq (doc : Doc) (lastDef : MdLinkDefinition) :
    getLastNonWhitespaceLineFrom doc lastDef =
      match lastNonWsIndex? (splitLines (textAfterLine doc (lastDef.range.stop.line + 1))) with
      | some i => lastDef.range.start.line + 1 + i
      | none => lastDef.range.start.line := rfl

/-- C7 (amended): when no trailing block exists, the Organizer appends one
edit replacing everything from line `A + 1` to the document end with the
rendered block prefixed by two newlines when the anchor `A` is the
document's last line and one newline otherwise; the anchor `A` is
`lastDef.source.range.start.line + 1 + i` where `i` is the index of the last
non-blank line among the lines after the definition's **end** line (so for a
multi-line last definition the anchor is shifted up by the definition's
extra lines and the edit is not after the last non-blank line), falling back
to `lastDef.source.range.start.line` when everything after is blank. -/
theorem organize_insert_noBlock (doc : Doc) (removeUnused : Bool) (links : List MdLink)
    (lastDef : MdLinkDefinition)
    (hlast : (organizeDefinitions links).getLast? = some lastDef)
    (hblock : getExistingDefinitionBlock doc (organizeDefinitions links) = none)
    (hclean : ∀ s ∈ doc, '\n' ∉ s.data) :
    (getOrganizeLinkDefinitionEdits doc removeUnused links =
      organizeDeletionEdits doc links ++
        [⟨⟨⟨getLastNonWhitespaceLineFrom doc lastDef + 1, 0⟩, ⟨doc.length, 0⟩⟩,
          (if getLastNonWhitespaceLineFrom doc lastDef == doc.length - 1
            then "\n\n" else "\n") ++ organizeDefBlock removeUnused links⟩]) ∧
    lastDef.range.start.line ≤ getLastNonWhitespaceLineFrom doc lastDef ∧
    ((getLastNonWhitespaceLineFrom doc lastDef = lastDef.range.start.line ∧
        ∀ j, lastDef.range.stop.line + 1 + j < doc.length →
          isEmptyOrWhitespace (getLine doc (lastDef.range.stop.line + 1 + j)) = true) ∨
      (∃ i, getLastNonWhitespaceLineFrom doc lastDef = lastDef.range.start.line + 1 + i ∧
        lastDef.range.stop.line + 1 + i < doc.length ∧
        isEmptyOrWhitespace (getLine doc (lastDef.range.stop.line + 1 + i)) = false ∧
        ∀ j, i < j → lastDef.range.stop.line + 1 + j < doc.length →
          isEmptyOrWhitespace (getLine doc (lastDef.range.stop.line + 1 + j)) = true)) := by
  refine ⟨?_, ?_, ?_⟩
  · unfold getOrganizeLinkDefinitionEdits
    simp only [hlast, hblock]
  · rw [getLastNonWhitespaceLineFrom_eq]
    cases (lastNonWsIndex? (splitLines (textAfterLine doc (lastDef.range.stop.line + 1)))) with
    | none => exact Nat.le_refl _
    | some i =>
      show lastDef.range.start.line ≤ lastDef.range.start.line + 1 + i
      omega
  · by_cases hdrop : doc.drop (lastDef.range.stop.line + 1) = []
    · left
      have hlen : doc.length ≤ lastDef.range.stop.line + 1 := List.drop_eq_nil_iff.mp hdrop
      have hA : getLastNonWhitespaceLineFrom doc lastDef = lastDef.range.start.line := by
        rw [getLastNonWhitespaceLineFrom_eq]
        have htext : textAfterLine doc (lastDef.range.stop.line + 1) = "" := by
          unfold textAfterLine
          rw [hdrop]
          rfl
        rw [htext]
        rfl
      exact ⟨hA, fun j hj => absurd hj (by omega)⟩
    · have hlines : splitLines (textAfterLine doc (lastDef.range.stop.line + 1)) =
          doc.drop (lastDef.range.stop.line + 1) := by
        unfold textAfterLine
        exact splitLines_joinLines _ hdrop
          (fun s hs => hclean s (List.mem_of_mem_drop hs))
      have hlenlines : (doc.drop (lastDef.range.stop.line + 1)).length =
          doc.length - (lastDef.range.stop.line + 1) := List.length_drop _ _
      have hlendoc : lastDef.range.stop.line + 1 ≤ doc.length := by
        by_contra hcon
        exact hdrop (List.drop_eq_nil_iff.mpr (by omega))
      have hgetD : ∀ j, (doc.drop (lastDef.range.stop.line + 1)).getD j "" =
          getLine doc (lastDef.range.stop.line + 1 + j) :=
        fun j => drop_getD_eq doc (lastDef.range.stop.line + 1) j
      rw [getLastNonWhitespaceLineFrom_eq, hlines]
      cases hfind : lastNonWsIndex? (doc.drop (lastDef.range.stop.line + 1)) with
      | none =>
        left
        refine ⟨rfl, fun j hj => ?_⟩
        have := find?_range_reverse_none hfind j (by omega)
        rw [hgetD j] at this
        simpa using this
      | some i =>
        right
        obtain ⟨h1, h2, h3⟩ := find?_range_reverse_some hfind
        refine ⟨i, rfl, by omega, ?_, fun j hj1 hj2 => ?_⟩
        · have := h2
          rw [hgetD i] at this
          simpa using this
        · have := h3 j hj1 (by omega)
          rw [hgetD j] at this
          simpa using this

/-- C7 counterexample input: one definition spanning lines 0–1, followed by
the non-blank line `after` and a blank line. -/
def c7Doc : Doc := ["[a]: http://example.com", "\ttitle", "after", ""]

/-- C7 counterexample links: the single two-line definition. -/
def c7Links : List MdLink :=
  [MdLink.definition ⟨⟨"a", ⟨⟨0, 1⟩, ⟨0, 2⟩⟩⟩, ⟨⟨0, 0⟩, ⟨1, 6⟩⟩, "http://example.com"⟩]

/-- C7 counterexample: in `c7Doc` the last non-blank line following the
definitions is line 2 (`after`), so the claim's insertion point would be
line 3; but the Organizer's final edit replaces from line 2 on — the anchor
is computed from the definition's **start** line, so for the two-line
definition it is not after the last non-blank line. -/
theorem organize_insert_noBlock_counterexample :
    isEmptyOrWhitespace (getLine c7Doc 2) = false ∧
    (∀ j, j < c7Doc.length → 2 < j → isEmptyOrWhitespace (getLine c7Doc j) = true) ∧
    ((getOrganizeLinkDefinitionEdits c7Doc false c7Links).map (fun e => e.range)).getLast?
      = some ⟨⟨2, 0⟩, ⟨4, 0⟩⟩ := by
  refine ⟨by decide, by decide, by decide⟩

/-- C7 witness for the amended claim, at the counterexample input: the
hypotheses hold and the anchor is at or after the definition's start line. -/
theorem organize_insert_noBlock_witness :
    ((organizeDefinitions c7Links).getLast? =
      some ⟨⟨"a", ⟨⟨0, 1⟩, ⟨0, 2⟩⟩⟩, ⟨⟨0, 0⟩, ⟨1, 6⟩⟩, "http://example.com"⟩) ∧
    (getExistingDefinitionBlock c7Doc (organizeDefinitions c7Links) = none) ∧
    (⟨⟨"a", ⟨⟨0, 1⟩, ⟨0, 2⟩⟩⟩, ⟨⟨0, 0⟩, ⟨1, 6⟩⟩,
        "http://example.com"⟩ : MdLinkDefinition).range.start.line ≤
      getLastNonWhitespaceLineFrom c7Doc
        ⟨⟨"a", ⟨⟨0, 1⟩, ⟨0, 2⟩⟩⟩, ⟨⟨0, 0⟩, ⟨1, 6⟩⟩, "http://example.com"⟩ :=
  ⟨by decide, by decide,
    (organize_insert_noBlock c7Doc false c7Links
      ⟨⟨"a", ⟨⟨0, 1⟩, ⟨0, 2⟩⟩⟩, ⟨⟨0, 0⟩, ⟨1, 6⟩⟩, "http://example.com"⟩
      (by decide) (by decide) (by decide)).2.1⟩

/-! ## C8: the Extractor's sentinel results -/

theorem getActions_eq (doc : Doc) (range : Range) (contextOnly : Option (List String))
    (linkInfo : MdDocumentLinksInfo) (h : isEnabled contextOnly = true) :
    getActions doc range contextOnly linkInfo =
      (if (linkInfo.links.filter (linkInRange range)).isEmpty then [notOnLinkAction]
       else
        match (List.insertionSort descStart
            (linkInfo.links.filter (linkInRange range))).find?
            (fun l => isExtOrInt (linkHrefX l)) with
        | none => [alreadyRefLinkAction]
        | some targetLink => [getExtractLinkAction doc linkInfo targetLink]) := by
  unfold getActions
  rw [h]
  rfl

/-- C8: when enabled, if no non-definition link intersects the range the
result is exactly the "not on link" sentinel; if some intersects but none
has an `External` or `Internal` href, the result is exactly the "already a
reference" sentinel; and when the descending-start-sorted scan finds a
qualifying link `t`, the result is exactly the extract action for `t`, a
link intersecting the range whose start position is maximal among all
qualifying intersecting links.  Being a total function, the operation never
throws. -/
theorem getActions_sentinels (doc : Doc) (range : Range)
    (contextOnly : Option (List String)) (linkInfo : MdDocumentLinksInfo)
    (henabled : isEnabled contextOnly = true) :
    ((∀ l ∈ linkInfo.links, linkInRange range l = false) →
      getActions doc range contextOnly linkInfo = [notOnLinkAction]) ∧
    ((∃ l ∈ linkInfo.links, linkInRange range l = true) →
      (∀ l ∈ linkInfo.links, linkInRange range l = true →
        isExtOrInt (linkHrefX l) = false) →
      getActions doc range contextOnly linkInfo = [alreadyRefLinkAction]) ∧
    (∀ t, (List.insertionSort descStart
        (linkInfo.links.filter (linkInRange range))).find?
        (fun l => isExtOrInt (linkHrefX l)) = some t →
      getActions doc range contextOnly linkInfo = [getExtractLinkAction doc linkInfo t] ∧
      t ∈ linkInfo.links ∧ linkInRange range t = true ∧
      isExtOrInt (linkHrefX t) = true ∧
      ∀ l ∈ linkInfo.links, linkInRange range l = true →
        isExtOrInt (linkHrefX l) = true →
        posLe (linkSourceRange l).start (linkSourceRange t).start) := by
  rw [getActions_eq doc range contextOnly linkInfo henabled]
  set flt := linkInfo.links.filter (linkInRange range) with hflt
  have hperm := List.perm_insertionSort descStart flt
  refine ⟨?_, ?_, ?_⟩
  · intro hnone
    have : flt = [] := List.filter_eq_nil_iff.mpr
      (fun a ha => by rw [hnone a ha]; exact Bool.false_ne_true)
    rw [this]
    rfl
  · intro ⟨l, hl, hlr⟩ hnoext
    have hne : flt.isEmpty = false := by
      have : l ∈ flt := List.mem_filter.mpr ⟨hl, hlr⟩
      cases he : flt.isEmpty
      · rfl
      · rw [List.isEmpty_iff.mp he] at this; cases this
    rw [if_neg (by rw [hne]; exact Bool.false_ne_true)]
    have hfind : (List.insertionSort descStart flt).find?
        (fun l => isExtOrInt (linkHrefX l)) = none := by
      apply List.find?_eq_none.mpr
      intro x hx
      have hxf : x ∈ flt := hperm.mem_iff.mp hx
      have := hnoext x (List.mem_filter.mp hxf).1 (List.mem_filter.mp hxf).2
      rw [this]
      exact Bool.false_ne_true
    rw [hfind]
  · intro t hfind
    have ht_mem_sort := List.mem_of_find?_eq_some hfind
    have ht_mem_flt : t ∈ flt := hperm.mem_iff.mp ht_mem_sort
    have hne : flt.isEmpty = false := by
      cases he : flt.isEmpty
      · rfl
      · rw [List.isEmpty_iff.mp he] at ht_mem_flt; cases ht_mem_flt
    constructor
    · rw [if_neg (by rw [hne]; exact Bool.false_ne_true), hfind]
    refine ⟨(List.mem_filter.mp ht_mem_flt).1, (List.mem_filter.mp ht_mem_flt).2,
      by simpa using List.find?_some hfind, ?_⟩
    intro l hl hlr hext
    have hl_flt : l ∈ flt := List.mem_filter.mpr ⟨hl, hlr⟩
    have hl_sort : l ∈ List.insertionSort descStart flt := hperm.mem_iff.mpr hl_flt
    obtain ⟨hp, as, bs, hsplit, has⟩ := List.find?_eq_some.mp hfind
    have hsorted : List.Pairwise descStart (as ++ t :: bs) := by
      rw [← hsplit]
      exact List.sorted_insertionSort descStart flt
    rw [hsplit] at hl_sort
    rcases List.mem_append.mp hl_sort with hin | hin
    · have := has l hin
      rw [hext] at this
      cases this
    · rcases List.mem_cons.mp hin with heq | hin'
      · subst heq
        unfold posLe
        omega
      · have hrel : descStart t l :=
          (List.pairwise_cons.mp (List.pairwise_append.mp hsorted).2.1).1 l hin'
        unfold descStart at hrel
        exact comparePosition_nonpos_iff.mp hrel

/-- C8 witness: a single external inline link under the cursor — the result
is exactly the extract action for it. -/
theorem getActions_sentinels_witness :
    ((List.insertionSort descStart
        ((⟨[MdLink.link (Href.external "http://x") ⟨⟨0, 0⟩, ⟨0, 13⟩⟩ ⟨⟨0, 3⟩, ⟨0, 13⟩⟩],
          []⟩ : MdDocumentLinksInfo).links.filter
          (linkInRange ⟨⟨0, 2⟩, ⟨0, 2⟩⟩))).find?
        (fun l => isExtOrInt (linkHrefX l)) =
      some (MdLink.link (Href.external "http://x") ⟨⟨0, 0⟩, ⟨0, 13⟩⟩ ⟨⟨0, 3⟩, ⟨0, 13⟩⟩)) ∧
    getActions ["[a](http://x)"] ⟨⟨0, 2⟩, ⟨0, 2⟩⟩ none
      ⟨[MdLink.link (Href.external "http://x") ⟨⟨0, 0⟩, ⟨0, 13⟩⟩ ⟨⟨0, 3⟩, ⟨0, 13⟩⟩], []⟩ =
      [getExtractLinkAction ["[a](http://x)"]
        ⟨[MdLink.link (Href.external "http://x") ⟨⟨0, 0⟩, ⟨0, 13⟩⟩ ⟨⟨0, 3⟩, ⟨0, 13⟩⟩], []⟩
        (MdLink.link (Href.external "http://x") ⟨⟨0, 0⟩, ⟨0, 13⟩⟩ ⟨⟨0, 3⟩, ⟨0, 13⟩⟩)] :=
  ⟨by decide,
    ((getActions_sentinels ["[a](http://x)"] ⟨⟨0, 2⟩, ⟨0, 2⟩⟩ none
      ⟨[MdLink.link (Href.external "http://x") ⟨⟨0, 0⟩, ⟨0, 13⟩⟩ ⟨⟨0, 3⟩, ⟨0, 13⟩⟩], []⟩
      (by decide)).2.2
      (MdLink.link (Href.external "http://x") ⟨⟨0, 0⟩, ⟨0, 13⟩⟩ ⟨⟨0, 3⟩, ⟨0, 13⟩⟩)
      (by decide)).1⟩

/-! ## C6: placeholder uniqueness and minimality -/

theorem digitChar_toNat : ∀ n, n < 10 → (Nat.digitChar n).toNat = 48 + n := by decide

theorem digitChar_nice : ∀ n, n < 10 →
    ((Nat.digitChar n).isWhitespace = false ∧
      (Nat.digitChar n).toLower = Nat.digitChar n) := by decide

theorem decode_natDigitsAux : ∀ (fuel n : Nat), n < fuel →
    decodeDigits (natDigitsAux fuel n) = n := by
  intro fuel
  induction fuel with
  | zero => intro n h; omega
  | succ fuel ih =>
    intro n h
    unfold natDigitsAux
    by_cases h10 : n < 10
    · rw [if_pos h10]
      unfold decodeDigits
      simp [digitChar_toNat n h10]
    · rw [if_neg h10]
      unfold decodeDigits
      rw [List.foldl_append]
      have hdiv : n / 10 < fuel := by omega
      have := ih (n / 10) hdiv
      unfold decodeDigits at this
      rw [this]
      simp only [List.foldl_cons, List.foldl_nil]
      rw [digitChar_toNat (n % 10) (by omega)]
      omega

theorem natDigitsAux_ne_nil (n : Nat) : natDigitsAux (n + 1) n ≠ [] := by
  unfold natDigitsAux
  by_cases h10 : n < 10
  · rw [if_pos h10]; simp
  · rw [if_neg h10]; simp

theorem natToString_inj {m n : Nat} (h : natToString m = natToString n) : m = n := by
  have hdata : natDigitsAux (m + 1) m = natDigitsAux (n + 1) n :=
    congrArg String.data h
  have hm := decode_natDigitsAux (m + 1) m (by omega)
  have hn := decode_natDigitsAux (n + 1) n (by omega)
  rw [hdata, hn] at hm
  omega

theorem natDigitsAux_chars : ∀ (fuel n : Nat), ∀ c ∈ natDigitsAux fuel n,
    c.isWhitespace = false ∧ c.toLower = c := by
  intro fuel
  induction fuel with
  | zero => intro n c hc; cases hc
  | succ fuel ih =>
    intro n c hc
    unfold natDigitsAux at hc
    by_cases h10 : n < 10
    · rw [if_pos h10] at hc
      rw [List.mem_singleton.mp hc]
      exact digitChar_nice n h10
    · rw [if_neg h10] at hc
      rcases List.mem_append.mp hc with hc' | hc'
      · exact ih (n / 10) c hc'
      · rw [List.mem_singleton.mp hc']
        exact digitChar_nice (n % 10) (by omega)

theorem filter_map_fixed : ∀ (l : List Char),
    (∀ c ∈ l, c.isWhitespace = false ∧ c.toLower = c) →
    (l.filter (fun c => !c.isWhitespace)).map Char.toLower = l
  | [], _ => rfl
  | c :: rest, h => by
    have hc := h c (List.mem_cons_self _ _)
    have hrest := filter_map_fixed rest (fun x hx => h x (List.mem_cons_of_mem c hx))
    rw [List.filter_cons]
    simp only [hc.1, Bool.not_false, if_pos trivial, List.map_cons, hc.2, hrest]

theorem candidateName_chars (i : Nat) :
    ∀ c ∈ (candidateName i).data, c.isWhitespace = false ∧ c.toLower = c := by
  unfold candidateName
  by_cases h1 : i = 1
  · rw [if_pos h1]
    decide
  · rw [if_neg h1]
    intro c hc
    have hdata : ("def" ++ natToString i).data = 'd' :: 'e' :: 'f' :: (natToString i).data :=
      rfl
    rw [hdata] at hc
    rcases List.mem_cons.mp hc with rfl | hc
    · exact ⟨by decide, by decide⟩
    rcases List.mem_cons.mp hc with rfl | hc
    · exact ⟨by decide, by decide⟩
    rcases List.mem_cons.mp hc with rfl | hc
    · exact ⟨by decide, by decide⟩
    exact natDigitsAux_chars (i + 1) i c hc

theorem normalize_candidateName (i : Nat) :
    normalizeRefName (candidateName i) = candidateName i := by
  unfold normalizeRefName
  rw [filter_map_fixed _ (candidateName_chars i)]

theorem candidateName_inj : ∀ {i j : Nat}, 1 ≤ i → 1 ≤ j →
    candidateName i = candidateName j → i = j := by
  intro i j hi hj h
  unfold candidateName at h
  by_cases h1 : i = 1 <;> by_cases h2 : j = 1
  · omega
  · rw [if_pos h1, if_neg h2] at h
    have hd : (['d', 'e', 'f'] : List Char) =
        'd' :: 'e' :: 'f' :: (natToString j).data := congrArg String.data h
    injection hd with _ hd
    injection hd with _ hd
    injection hd with _ hd
    exact absurd hd.symm (natDigitsAux_ne_nil j)
  · rw [if_neg h1, if_pos h2] at h
    have hd : ('d' :: 'e' :: 'f' :: (natToString i).data : List Char) =
        ['d', 'e', 'f'] := congrArg String.data h
    injection hd with _ hd
    injection hd with _ hd
    injection hd with _ hd
    exact absurd hd (natDigitsAux_ne_nil i)
  · rw [if_neg h1, if_neg h2] at h
    have hd : ('d' :: 'e' :: 'f' :: (natToString i).data : List Char) =
        'd' :: 'e' :: 'f' :: (natToString j).data := congrArg String.data h
    have hdd : (natToString i).data = (natToString j).data := by
      simpa using hd
    exact natToString_inj (congrArg String.mk hdd)

theorem lookupDef_isSome_mem {defs : List MdLinkDefinition} {name : String}
    (h : (lookupDef defs name).isSome = true) :
    normalizeRefName name ∈ defs.map (fun d => normalizeRefName d.ref.text) := by
  obtain ⟨d, hd⟩ := Option.isSome_iff_exists.mp h
  have hmem := List.mem_of_find?_eq_some hd
  have hbeq := List.find?_some hd
  simp only [beq_iff_eq] at hbeq
  exact List.mem_map.mpr ⟨d, hmem, hbeq⟩

theorem placeholder_exists (defs : List MdLinkDefinition) :
    ∃ j, 1 ≤ j ∧ j ≤ defs.length + 1 ∧
      (lookupDef defs (candidateName j)).isNone = true := by
  by_contra hcon
  push_neg at hcon
  have hsome : ∀ k, k < defs.length + 1 →
      (lookupDef defs (candidateName (k + 1))).isSome = true := by
    intro k hk
    have := hcon (k + 1) (by omega) (by omega)
    cases hopt : lookupDef defs (candidateName (k + 1)) with
    | none => rw [hopt] at this; exact absurd rfl this
    | some d => rfl
  set L := (List.range (defs.length + 1)).map (fun k => candidateName (k + 1)) with hL
  have hnodup : L.Nodup := by
    apply List.Nodup.map_on ?_ (List.nodup_range _)
    intro x _ y _ hxy
    have := candidateName_inj (by omega) (by omega) hxy
    omega
  have hsub : L ⊆ defs.map (fun d => normalizeRefName d.ref.text) := by
    intro x hx
    obtain ⟨k, hk, rfl⟩ := List.mem_map.mp hx
    rw [← normalize_candidateName (k + 1)]
    exact lookupDef_isSome_mem (hsome k (List.mem_range.mp hk))
  have hle := (hnodup.subperm hsub).length_le
  simp only [hL, List.length_map, List.length_range] at hle
  omega

theorem searchPlaceholder_spec (defs : List MdLinkDefinition) :
    ∀ (fuel i : Nat),
      (∃ j, i ≤ j ∧ j < i + fuel ∧ (lookupDef defs (candidateName j)).isNone = true) →
      ∃ k, i ≤ k ∧ k < i + fuel ∧ searchPlaceholder defs fuel i = candidateName k ∧
        (lookupDef defs (candidateName k)).isNone = true ∧
        ∀ m, i ≤ m → m < k → (lookupDef defs (candidateName m)).isSome = true := by
  intro fuel
  induction fuel with
  | zero =>
    intro i ⟨j, h1, h2, _⟩
    omega
  | succ fuel ih =>
    intro i hex
    by_cases hfree : (lookupDef defs (candidateName i)).isNone = true
    · refine ⟨i, Nat.le_refl _, by omega, ?_, hfree, fun m h1 h2 => by omega⟩
      show (if (lookupDef defs (candidateName i)).isNone = true
        then candidateName i else searchPlaceholder defs fuel (i + 1)) = candidateName i
      rw [if_pos hfree]
    · obtain ⟨j, hj1, hj2, hj3⟩ := hex
      have hji : j ≠ i := fun he => hfree (he ▸ hj3)
      obtain ⟨k, hk1, hk2, hk3, hk4, hk5⟩ :=
        ih (i + 1) ⟨j, by omega, by omega, hj3⟩
      refine ⟨k, by omega, by omega, ?_, hk4, ?_⟩
      · show (if (lookupDef defs (candidateName i)).isNone = true
          then candidateName i else searchPlaceholder defs fuel (i + 1)) = candidateName k
        rw [if_neg hfree]
        exact hk3
      · intro m h1 h2
        by_cases hmi : m = i
        · subst hmi
          cases hopt : lookupDef defs (candidateName m) with
          | none => exact absurd (by rw [hopt]; rfl) hfree
          | some d => rfl
        · exact hk5 m (by omega) h2

/-- C6: the placeholder chosen by the Extractor is the first element of the
sequence `"def"`, `"def2"`, `"def3"`, … whose (case/whitespace-insensitive)
lookup in the definition set fails; consequently it never collides with any
existing definition's normalized label, and the first free candidate always
lies within `definitions.length + 1` steps, so the source's unbounded search
loop terminates on every finite definition set. -/
theorem getPlaceholder_first_free (defs : List MdLinkDefinition) :
    ∃ k, 1 ≤ k ∧ k ≤ defs.length + 1 ∧
      getPlaceholder defs = candidateName k ∧
      lookupDef defs (candidateName k) = none ∧
      (∀ m, 1 ≤ m → m < k → (lookupDef defs (candidateName m)).isSome = true) ∧
      lookupDef defs (getPlaceholder defs) = none := by
  obtain ⟨j, hj1, hj2, hj3⟩ := placeholder_exists defs
  obtain ⟨k, hk1, hk2, hk3, hk4, hk5⟩ :=
    searchPlaceholder_spec defs (defs.length + 1) 1 ⟨j, hj1, by omega, hj3⟩
  refine ⟨k, hk1, by omega, hk3, Option.isNone_iff_eq_none.mp hk4, hk5, ?_⟩
  show lookupDef defs (getPlaceholder defs) = none
  unfold getPlaceholder
  rw [hk3]
  exact Option.isNone_iff_eq_none.mp hk4

/-! ## C9: non-overlap of the produced edits -/

theorem takeAdjacentRun_le : ∀ (l : List MdLinkDefinition) (e : Nat),
    e ≤ (takeAdjacentRun e l).1
  | [], e => Nat.le_refl e
  | d :: rest, e => by
    simp only [takeAdjacentRun]
    by_cases h : d.range.start.line = e + 1
    · rw [if_pos h]
      have := takeAdjacentRun_le rest d.range.start.line
      omega
    · rw [if_neg h]

theorem takeAdjacentRun_sublist : ∀ (l : List MdLinkDefinition) (e : Nat),
    (takeAdjacentRun e l).2.Sublist l
  | [], e => List.nil_sublist _
  | d :: rest, e => by
    simp only [takeAdjacentRun]
    by_cases h : d.range.start.line = e + 1
    · rw [if_pos h]
      exact List.Sublist.cons d (takeAdjacentRun_sublist rest d.range.start.line)
    · rw [if_neg h]

theorem takeAdjacentRun_cover : ∀ (l : List MdLinkDefinition) (e k : Nat),
    e < k → k ≤ (takeAdjacentRun e l).1 → ∃ d ∈ l, d.range.start.line = k
  | [], e, k => fun h1 h2 => absurd (Nat.lt_of_lt_of_le h1 h2) (Nat.lt_irrefl e)
  | d :: rest, e, k => by
    simp only [takeAdjacentRun]
    by_cases h : d.range.start.line = e + 1
    · rw [if_pos h]
      intro h1 h2
      by_cases hk : k = e + 1
      · exact ⟨d, List.mem_cons_self _ _, by omega⟩
      · obtain ⟨d', hd', he'⟩ :=
          takeAdjacentRun_cover rest d.range.start.line k (by omega) h2
        exact ⟨d', List.mem_cons_of_mem d hd', he'⟩
    · rw [if_neg h]
      intro h1 h2
      omega

theorem takeAdjacentRun_break : ∀ (l : List MdLinkDefinition) (e : Nat),
    l.Pairwise (fun a b => a.range.start.line < b.range.start.line) →
    (∀ d ∈ l, e < d.range.start.line) →
    ∀ d ∈ (takeAdjacentRun e l).2, (takeAdjacentRun e l).1 + 2 ≤ d.range.start.line
  | [], e => fun _ _ d hd => absurd hd (List.not_mem_nil d)
  | d :: rest, e => by
    intro hpair hgt
    simp only [takeAdjacentRun]
    by_cases h : d.range.start.line = e + 1
    · rw [if_pos h]
      exact takeAdjacentRun_break rest d.range.start.line
        (List.pairwise_cons.mp hpair).2
        (fun x hx => (List.pairwise_cons.mp hpair).1 x hx)
    · rw [if_neg h]
      intro x hx
      have hde : e < d.range.start.line := hgt d (List.mem_cons_self _ _)
      rcases List.mem_cons.mp hx with rfl | hx'
      · omega
      · have := (List.pairwise_cons.mp hpair).1 x hx'
        omega

theorem groupsAux_start_le_end : ∀ (fuel : Nat) (l : List MdLinkDefinition),
    ∀ g ∈ groupsAux fuel l, g.startLine ≤ g.endLine := by
  intro fuel
  induction fuel with
  | zero =>
    intro l g hg
    cases l with
    | nil => cases hg
    | cons d rest => cases hg
  | succ fuel ih =>
    intro l g hg
    cases l with
    | nil => cases hg
    | cons d rest =>
      simp only [groupsAux] at hg
      rcases List.mem_cons.mp hg with rfl | hg'
      · exact takeAdjacentRun_le rest d.range.start.line
      · exact ih _ g hg'

theorem groupsAux_cover : ∀ (fuel : Nat) (l : List MdLinkDefinition),
    ∀ g ∈ groupsAux fuel l, ∀ k, g.startLine ≤ k → k ≤ g.endLine →
      ∃ d ∈ l, d.range.start.line = k := by
  intro fuel
  induction fuel with
  | zero =>
    intro l g hg
    cases l with
    | nil => cases hg
    | cons d rest => cases hg
  | succ fuel ih =>
    intro l g hg k hk1 hk2
    cases l with
    | nil => cases hg
    | cons d rest =>
      simp only [groupsAux] at hg
      rcases List.mem_cons.mp hg with rfl | hg'
      · by_cases hkd : k = d.range.start.line
        · exact ⟨d, List.mem_cons_self _ _, hkd.symm⟩
        · obtain ⟨d', hd', he'⟩ := takeAdjacentRun_cover rest d.range.start.line k
            (by simp only [Block.startLine] at hk1; omega)
            (by simpa using hk2)
          exact ⟨d', List.mem_cons_of_mem d hd', he'⟩
      · obtain ⟨d', hd', he'⟩ := ih _ g hg' k hk1 hk2
        exact ⟨d', (takeAdjacentRun_sublist rest d.range.start.line).mem hd'
          |> List.mem_cons_of_mem d, he'⟩

theorem groupsAux_start_mem : ∀ (fuel : Nat) (l : List MdLinkDefinition),
    ∀ g ∈ groupsAux fuel l, ∃ x ∈ l, g.startLine = x.range.start.line := by
  intro fuel
  induction fuel with
  | zero =>
    intro l g hg
    cases l with
    | nil => cases hg
    | cons d rest => cases hg
  | succ fuel ih =>
    intro l g hg
    cases l with
    | nil => cases hg
    | cons d rest =>
      simp only [groupsAux] at hg
      rcases List.mem_cons.mp hg with rfl | hg'
      · exact ⟨d, List.mem_cons_self _ _, rfl⟩
      · obtain ⟨x, hx, he⟩ := ih _ g hg'
        exact ⟨x, (takeAdjacentRun_sublist rest d.range.start.line).mem hx
          |> List.mem_cons_of_mem d, he⟩

theorem groupsAux_sep : ∀ (fuel : Nat) (l : List MdLinkDefinition),
    l.Pairwise (fun a b => a.range.start.line < b.range.start.line) →
    (groupsAux fuel l).Pairwise (fun g h => g.endLine + 2 ≤ h.startLine) := by
  intro fuel
  induction fuel with
  | zero =>
    intro l _
    cases l with
    | nil => exact List.Pairwise.nil
    | cons d rest => exact List.Pairwise.nil
  | succ fuel ih =>
    intro l hl
    cases l with
    | nil => exact List.Pairwise.nil
    | cons d rest =>
      simp only [groupsAux]
      have hrest_pair := (List.pairwise_cons.mp hl).2
      have hrest_gt : ∀ x ∈ rest, d.range.start.line < x.range.start.line :=
        (List.pairwise_cons.mp hl).1
      have htail_pair : (takeAdjacentRun d.range.start.line rest).2.Pairwise
          (fun a b => a.range.start.line < b.range.start.line) :=
        List.Pairwise.sublist (takeAdjacentRun_sublist rest d.range.start.line) hrest_pair
      refine List.pairwise_cons.mpr ⟨?_, ih _ htail_pair⟩
      intro g hg
      obtain ⟨x, hx, he⟩ := groupsAux_start_mem fuel _ g hg
      have := takeAdjacentRun_break rest d.range.start.line hrest_pair hrest_gt x hx
      simp only [Block.endLine]
      omega

theorem walkBackFrom_pred : ∀ (l : List MdLinkDefinition) (prev : Nat),
    l.Pairwise (fun a b => b.range.start.line < a.range.start.line) →
    (∀ d ∈ l, d.range.start.line ≤ prev) →
    walkBackFrom prev l ≤ prev ∧
      ∀ d ∈ l, d.range.start.line < walkBackFrom prev l →
        d.range.start.line + 1 < walkBackFrom prev l
  | [], prev => fun _ _ => ⟨Nat.le_refl _, fun d hd => absurd hd (List.not_mem_nil d)⟩
  | d :: rest, prev => by
    intro hpair hbound
    have hdp : d.range.start.line ≤ prev := hbound d (List.mem_cons_self _ _)
    simp only [walkBackFrom]
    by_cases h : d.range.start.line < prev - 1
    · rw [if_pos h]
      refine ⟨Nat.le_refl _, ?_⟩
      intro x hx _
      rcases List.mem_cons.mp hx with rfl | hx'
      · omega
      · have := (List.pairwise_cons.mp hpair).1 x hx'
        omega
    · rw [if_neg h]
      obtain ⟨hle, hpred⟩ := walkBackFrom_pred rest d.range.start.line
        (List.pairwise_cons.mp hpair).2
        (fun x hx => Nat.le_of_lt ((List.pairwise_cons.mp hpair).1 x hx))
      refine ⟨by omega, ?_⟩
      intro x hx hlt
      rcases List.mem_cons.mp hx with rfl | hx'
      · omega
      · exact hpred x hx' hlt

theorem mem_line_le_getLast {defs : List MdLinkDefinition} {lastDef : MdLinkDefinition}
    (hsorted : defs.Pairwise (fun a b => a.range.start.line < b.range.start.line))
    (hlast : defs.getLast? = some lastDef) :
    ∀ d ∈ defs, d.range.start.line ≤ lastDef.range.start.line := by
  intro d hd
  have hne : defs ≠ [] := getLast?_ne_nil hlast
  have hgl : defs.getLast hne = lastDef := getLast?_eq_getLast' hlast hne
  rw [← List.dropLast_append_getLast hne] at hd
  rcases List.mem_append.mp hd with hd' | hd'
  · have := sorted_lt_getLast defs hne hsorted d hd'
    rw [hgl] at this
    omega
  · rw [List.mem_singleton.mp hd', ← hgl]

theorem getLastNonWhitespaceLineFrom_ge (doc : Doc) (lastDef : MdLinkDefinition) :
    lastDef.range.start.line ≤ getLastNonWhitespaceLineFrom doc lastDef := by
  rw [getLastNonWhitespaceLineFrom_eq]
  cases lastNonWsIndex? (splitLines (textAfterLine doc (lastDef.range.stop.line + 1))) with
  | none => exact Nat.le_refl _
  | some i =>
    show lastDef.range.start.line ≤ lastDef.range.start.line + 1 + i
    omega

theorem not_posLt_posLe {a b : Pos} (h : ¬ posLt a b) : posLe b a := by
  unfold posLt at h
  unfold posLe
  omega

theorem rangesDisjoint_mono {r s r' s' : Range} (h1 : rangeWithin r s)
    (h2 : rangeWithin r' s') (h : rangesDisjoint s s') : rangesDisjoint r r' := by
  rcases h with h | h
  · exact Or.inl (posLe_trans h1.2 (posLe_trans h h2.1))
  · exact Or.inr (posLe_trans h2.2 (posLe_trans h h1.1))

theorem organizeDeletionEdits_ranges (doc : Doc) (links : List MdLink) :
    organizeDeletionEdits doc links =
      ((getDefinitionBlockGroups (organizeDefinitions links)).filter
        (shouldDelete (getExistingDefinitionBlock doc (organizeDefinitions links)))).map
        (deletionEditOf doc) := rfl

theorem deletionEdits_pairwise (doc : Doc) (links : List MdLink)
    (hsorted : (organizeDefinitions links).Pairwise
      (fun a b => a.range.start.line < b.range.start.line)) :
    ((organizeDeletionEdits doc links).map (fun e => e.range)).Pairwise rangesDisjoint := by
  rw [organizeDeletionEdits_ranges, List.map_map]
  apply List.pairwise_map.mpr
  apply List.Pairwise.filter
  apply List.Pairwise.imp ?_ (groupsAux_sep (organizeDefinitions links).length
    (organizeDefinitions links) hsorted)
  intro g h hsep
  have hlt : g.endLine < h.startLine := by omega
  exact Or.inl (Or.inl hlt)

theorem deletion_groups_before_block (doc : Doc) (links : List MdLink)
    (hsorted : (organizeDefinitions links).Pairwise
      (fun a b => a.range.start.line < b.range.start.line))
    (lastDef : MdLinkDefinition)
    (hlast : (organizeDefinitions links).getLast? = some lastDef) (b : Block)
    (hb : getExistingDefinitionBlock doc (organizeDefinitions links) = some b) :
    ∀ g ∈ getDefinitionBlockGroups (organizeDefinitions links),
      g.startLine < b.startLine → g.endLine < b.startLine := by
  intro g hg hgb
  have hbval : b = ⟨walkBackFrom lastDef.range.start.line
      (organizeDefinitions links).reverse, lastDef.range.start.line⟩ := by
    unfold getExistingDefinitionBlock at hb
    simp only [hlast] at hb
    by_cases hws : isEmptyOrWhitespace
        (textAfterLine doc (lastDef.range.stop.line + 1)) = true
    · rw [if_pos hws] at hb
      exact (Option.some.inj hb).symm
    · rw [if_neg hws] at hb
      cases hb
  have hBeq : b.startLine = walkBackFrom lastDef.range.start.line
      (organizeDefinitions links).reverse := by rw [hbval]
  obtain ⟨hBle, hpred⟩ := walkBackFrom_pred (organizeDefinitions links).reverse
    lastDef.range.start.line
    (List.pairwise_reverse.mpr hsorted)
    (fun d hd => mem_line_le_getLast hsorted hlast d (List.mem_reverse.mp hd))
  rw [← hBeq] at hpred
  by_contra hcon
  push_neg at hcon
  obtain ⟨d, hd, hdline⟩ := groupsAux_cover (organizeDefinitions links).length
    (organizeDefinitions links) g hg (b.startLine - 1) (by omega) (by omega)
  have h1 := hpred d (List.mem_reverse.mpr hd) (by omega)
  omega

theorem rewriteEditOf_eq_some {h : Href} {ph : String} {l : MdLink} {e : TextEdit} :
    rewriteEditOf h ph l = some e ↔
      (isInlineOrAuto l && matchesHref h l) = true ∧
        e = ⟨rewriteTargetRange l, "[" ++ ph ++ "]"⟩ := by
  unfold rewriteEditOf
  by_cases hc : (isInlineOrAuto l && matchesHref h l) = true
  · rw [if_pos hc]
    simp [hc, eq_comm]
  · rw [if_neg hc]
    simp [hc]

/-- C9: the edit list of one Organizer call consists of pairwise
non-overlapping ranges (the group deletion ranges are disjoint from each
other and from the block replacement or insertion range), given
document-ordered definitions; and the edit bundle of one Extractor action
consists of pairwise non-overlapping ranges, given a snapshot whose inline
and autolink source ranges are pairwise non-overlapping, contain their
rewrite target ranges, and do not strictly straddle the definition-insertion
position. -/
theorem organize_extract_edits_disjoint (doc : Doc) (removeUnused : Bool)
    (links : List MdLink)
    (hsorted : (organizeDefinitions links).Pairwise
      (fun a b => a.range.start.line < b.range.start.line))
    (doc2 : Doc) (linkInfo : MdDocumentLinksInfo) (targetLink : MdLink)
    (hsrcdisj : linkInfo.links.Pairwise (fun a b =>
      isInlineOrAuto a = true → isInlineOrAuto b = true →
        rangesDisjoint (linkSourceRange a) (linkSourceRange b)))
    (htgt_in : ∀ l ∈ linkInfo.links, isInlineOrAuto l = true →
      rangeWithin (rewriteTargetRange l) (linkSourceRange l))
    (hins : ∀ l ∈ linkInfo.links, isInlineOrAuto l = true →
      ¬(posLt (rewriteTargetRange l).start
          (extractDefEdit doc2 linkInfo targetLink).range.start ∧
        posLt (extractDefEdit doc2 linkInfo targetLink).range.start
          (rewriteTargetRange l).stop)) :
    ((getOrganizeLinkDefinitionEdits doc removeUnused links).map
      (fun e => e.range)).Pairwise rangesDisjoint ∧
    ((getExtractLinkAction doc2 linkInfo targetLink).edits.map
      (fun e => e.range)).Pairwise rangesDisjoint := by
  constructor
  · cases hlast : (organizeDefinitions links).getLast? with
    | none =>
      unfold getOrganizeLinkDefinitionEdits
      simp only [hlast, List.map_nil]
      exact List.Pairwise.nil
    | some lastDef =>
      cases hb : getExistingDefinitionBlock doc (organizeDefinitions links) with
      | some b =>
        unfold getOrganizeLinkDefinitionEdits
        simp only [hlast, hb]
        split
        · simp
        · rw [List.map_append]
          apply List.pairwise_append.mpr
          refine ⟨deletionEdits_pairwise doc links hsorted, by simp, ?_⟩
          intro r hr r' hr'
          simp only [List.map_cons, List.map_nil, List.mem_singleton] at hr'
          subst hr'
          rw [organizeDeletionEdits_ranges, List.map_map] at hr
          obtain ⟨g, hgmem, rfl⟩ := List.mem_map.mp hr
          have hgfilter := List.mem_filter.mp hgmem
          have hgdel : g.startLine < b.startLine := by
            have h2 := hgfilter.2
            simp only [shouldDelete, hb, decide_eq_true_eq] at h2
            exact h2
          have hlt := deletion_groups_before_block doc links hsorted lastDef hlast
            b hb g hgfilter.1 hgdel
          exact Or.inl (Or.inl hlt)
      | none =>
        unfold getOrganizeLinkDefinitionEdits
        simp only [hlast, hb]
        rw [List.map_append]
        apply List.pairwise_append.mpr
        refine ⟨deletionEdits_pairwise doc links hsorted, by simp, ?_⟩
        intro r hr r' hr'
        simp only [List.map_cons, List.map_nil, List.mem_singleton] at hr'
        subst hr'
        rw [organizeDeletionEdits_ranges, List.map_map] at hr
        obtain ⟨g, hgmem, rfl⟩ := List.mem_map.mp hr
        have hg := (List.mem_filter.mp hgmem).1
        have hstart_le := groupsAux_start_le_end (organizeDefinitions links).length
          (organizeDefinitions links) g hg
        obtain ⟨d, hd, hdl⟩ := groupsAux_cover (organizeDefinitions links).length
          (organizeDefinitions links) g hg g.endLine hstart_le (Nat.le_refl _)
        have hdle := mem_line_le_getLast hsorted hlast d hd
        have hA := getLastNonWhitespaceLineFrom_ge doc lastDef
        have hgoal : g.endLine < getLastNonWhitespaceLineFrom doc lastDef + 1 := by
          omega
        exact Or.inl (Or.inl hgoal)
  · unfold getExtractLinkAction
    dsimp only
    rw [extractRewriteEdits_eq_filterMap, List.map_append]
    apply List.pairwise_append.mpr
    refine ⟨?_, by simp, ?_⟩
    · rw [List.map_filterMap]
      apply List.pairwise_filterMap.mpr
      apply List.Pairwise.imp_of_mem ?_ hsrcdisj
      intro a b ha hb hr r hra r' hrb
      obtain ⟨ea, hea, hrea⟩ := Option.map_eq_some'.mp hra
      obtain ⟨eb, heb, hreb⟩ := Option.map_eq_some'.mp hrb
      obtain ⟨hca, hea'⟩ := rewriteEditOf_eq_some.mp hea
      obtain ⟨hcb, heb'⟩ := rewriteEditOf_eq_some.mp heb
      have hca' : isInlineOrAuto a = true ∧
          matchesHref (linkHrefX targetLink) a = true := by simpa using hca
      have hcb' : isInlineOrAuto b = true ∧
          matchesHref (linkHrefX targetLink) b = true := by simpa using hcb
      have hia : isInlineOrAuto a = true := hca'.1
      have hib : isInlineOrAuto b = true := hcb'.1
      have hdisj := hr hia hib
      have hwa := htgt_in a ha hia
      have hwb := htgt_in b hb hib
      rw [← hrea, ← hreb, hea', heb']
      exact rangesDisjoint_mono hwa hwb hdisj
    · intro r hr r' hr'
      simp only [List.map_cons, List.map_nil, List.mem_singleton] at hr'
      subst hr'
      rw [List.map_filterMap] at hr
      obtain ⟨a, ha, hfa⟩ := List.mem_filterMap.mp hr
      obtain ⟨ea, hea, hrea⟩ := Option.map_eq_some'.mp hfa
      obtain ⟨hca, hea'⟩ := rewriteEditOf_eq_some.mp hea
      have hca' : isInlineOrAuto a = true ∧
          matchesHref (linkHrefX targetLink) a = true := by simpa using hca
      have hia : isInlineOrAuto a = true := hca'.1
      have hnot := hins a ha hia
      rw [← hrea, hea']
      rcases not_and_or.mp hnot with hn | hn
      · exact Or.inr (not_posLt_posLe hn)
      · exact Or.inl (not_posLt_posLe hn)

/-- C9 witness input: a definition on line 0, a gap, and an adjacent pair on
lines 2–3 forming the trailing block. -/
def c9Doc : Doc := ["[b]: /b", "", "[a]: /a", "[c]: /c"]

/-- C9 witness snapshot for the Organizer. -/
def c9Links : List MdLink :=
  [MdLink.definition ⟨⟨"b", ⟨⟨0, 1⟩, ⟨0, 2⟩⟩⟩, ⟨⟨0, 0⟩, ⟨0, 7⟩⟩, "/b"⟩,
   MdLink.definition ⟨⟨"a", ⟨⟨2, 1⟩, ⟨2, 2⟩⟩⟩, ⟨⟨2, 0⟩, ⟨2, 7⟩⟩, "/a"⟩,
   MdLink.definition ⟨⟨"c", ⟨⟨3, 1⟩, ⟨3, 2⟩⟩⟩, ⟨⟨3, 0⟩, ⟨3, 7⟩⟩, "/c"⟩]

/-- C9 witness document for the Extractor. -/
def c9DocB : Doc := ["[a](http://x)", "[b](http://x)"]

/-- C9 witness target link: the first of the two inline links. -/
def c9Target : MdLink :=
  MdLink.link (Href.external "http://x") ⟨⟨0, 0⟩, ⟨0, 13⟩⟩ ⟨⟨0, 3⟩, ⟨0, 13⟩⟩

/-- C9 witness snapshot for the Extractor: two inline links to the same
destination, no definitions. -/
def c9Info : MdDocumentLinksInfo :=
  ⟨[c9Target, MdLink.link (Href.external "http://x") ⟨⟨1, 0⟩, ⟨1, 13⟩⟩ ⟨⟨1, 3⟩, ⟨1, 13⟩⟩],
   []⟩

/-- C9 witness: at the concrete inputs all hypotheses hold and both the
Organizer's edit list and the Extractor's edit bundle have pairwise
non-overlapping ranges. -/
theorem organize_extract_edits_disjoint_witness :
    ((organizeDefinitions c9Links).Pairwise
      (fun a b => a.range.start.line < b.range.start.line)) ∧
    (((getOrganizeLinkDefinitionEdits c9Doc false c9Links).map
        (fun e => e.range)).Pairwise rangesDisjoint ∧
      ((getExtractLinkAction c9DocB c9Info c9Target).edits.map
        (fun e => e.range)).Pairwise rangesDisjoint) :=
  ⟨by decide,
    organize_extract_edits_disjoint c9Doc false c9Links (by decide)
      c9DocB c9Info c9Target (by decide) (by decide) (by decide)⟩

end MdLs
